import Mathlib

/-!
# funcorder-fix: a shallow embedding of the detector / byte-splice fixer

This file embeds the core of the `funcorder-fix` repository in Lean 4:

* `internal/detector/structholder.go` — method model, receiver-name
  extraction, partition into constructors / exported / unexported,
  expected order, `NeedsReordering`;
* `internal/detector/detector.go` — violation detection;
* `internal/fixer/reorder.go` — slot replacements, descending-order
  byte splicing (`spliceBytes`);
* the fixer's comment preserver (`GetMethodBlock`) and the orchestrator
  (`Fixer.ProcessFile` / `Fixer.fixFile`).

Source bytes are modelled as `List Char` (one entry per byte; the Go code
indexes `[]byte` by integer offsets, here list positions).  The external
parser (`go/parser`) is out of scope of the repository; a parsed file is
modelled symbolically (`SymFile`) as the list of declared struct names
together with the file's top-level layout: an interleaving of method
blocks (doc comment + function text, with receiver and name as the parser
reports them) and arbitrary gap bytes (all other content).  `render`
yields the file's bytes; byte offsets that `go/token.FileSet` would report
are recomputed from the layout.
-/

namespace Funcorder

/-- File content: one list entry per byte. -/
abbrev Bytes := List Char

/-- `strings.TrimRight(s, "\n")`: drop all trailing newline bytes. -/
def trimNlRight (s : Bytes) : Bytes :=
  (s.reverse.dropWhile (fun c => c = '\n')).reverse

/-- `isConstructor` from structholder.go: name starts with `New`, `Must` or
`Or` (`strings.HasPrefix`, stated on the byte sequence of the name). -/
def isConstructor (name : String) : Bool :=
  "New".data.isPrefixOf name.data || "Must".data.isPrefixOf name.data
    || "Or".data.isPrefixOf name.data

/-- `ast.IsExported`: first character of the name is upper case.  (Go checks
`unicode.IsUpper` of the first rune; this agrees with `Char.isUpper` on the
ASCII identifiers this tool deals with.) -/
def isExported (name : String) : Bool :=
  match name.data with
  | [] => false
  | c :: _ => c.isUpper

/-! ## Receiver type expressions (`GetReceiverTypeName`, structholder.go) -/

/-- The shape of a method receiver's type expression, as `go/ast` reports it:
a plain identifier, a pointer (`*ast.StarExpr`), a generic instantiation with
one type argument (`*ast.IndexExpr`), with several (`*ast.IndexListExpr`), or
anything else.  Type-argument payloads are irrelevant to name extraction and
are omitted. -/
inductive RecvExpr where
  | ident (name : String)
  | star (x : RecvExpr)
  | index (x : RecvExpr)
  | indexList (x : RecvExpr)
  | otherExpr
deriving DecidableEq

/-- `GetReceiverTypeName` from structholder.go.  The Go switch handles
`*ast.Ident`, `*ast.StarExpr` whose operand is an identifier, and
`*ast.IndexExpr` whose operand is an identifier; every other shape falls
through to `return ""`. -/
def GetReceiverTypeName : RecvExpr → String
  | .ident n => n
  | .star (.ident n) => n
  | .index (.ident n) => n
  | _ => ""

/-! ## The splice primitive (`spliceBytes`, reorder.go) -/

/-- `spliceBytes` from reorder.go: `src[:start] ++ replacement ++ src[end:]`.
(`end` is a Lean keyword; the parameter is named `stop`.) -/
def spliceBytes (src : Bytes) (start stop : Nat) (replacement : Bytes) : Bytes :=
  src.take start ++ replacement ++ src.drop stop

/-! ## The declaration model (`SymFile`) -/

/-- One member function as the parser hands it over: receiver type name,
function name, the bytes of the attached doc comment (empty when there is
none; `fn.Doc`), and the bytes of the function itself (`fn.Pos()` up to
`fn.End()`). -/
structure Method where
  recv : String
  name : String
  doc : Bytes
  body : Bytes
deriving DecidableEq

/-- A top-level slice of the file: either bytes that belong to no member
function of a declared struct (gaps: other declarations, blank lines,
stray comments), or one member function's block. -/
inductive Item where
  | gap (text : Bytes)
  | method (m : Method)
deriving DecidableEq

/-- A parsed file: the declared struct type names (in declaration order)
and the file layout. -/
structure SymFile where
  decls : List String
  items : List Item
deriving DecidableEq

def itemBytes : Item → Bytes
  | .gap t => t
  | .method m => m.doc ++ m.body

def itemLen (it : Item) : Nat := (itemBytes it).length

def renderItems (items : List Item) : Bytes :=
  match items with
  | [] => []
  | it :: rest => itemBytes it ++ renderItems rest

/-- The bytes of the file. -/
def render (f : SymFile) : Bytes := renderItems f.items

/-- `detector.MethodInfo`: the function node plus the positions the parser
reports for it — `fn.Doc.Pos()` (equal to `pos` when there is no doc
comment), `fn.Pos()` and `fn.End()`, all as byte offsets. -/
structure MethodInfo where
  meth : Method
  docOff : Nat
  pos : Nat
  endPos : Nat
deriving DecidableEq

def MethodInfo.name (mi : MethodInfo) : String := mi.meth.name

/-- Walk the file layout collecting the `MethodInfo`s of the methods whose
receiver names `g` (the second collection loop of
`Detector.collectStructMethods`), computing offsets as the parser would. -/
def collectGo (g : String) : Nat → List Item → List MethodInfo
  | _, [] => []
  | off, .gap t :: rest => collectGo g (off + t.length) rest
  | off, .method m :: rest =>
    (if m.recv = g then
      [{ meth := m, docOff := off, pos := off + m.doc.length,
         endPos := off + m.doc.length + m.body.length }]
     else []) ++ collectGo g (off + m.doc.length + m.body.length) rest

/-- Insertion step of the comparison sort standing in for `sort.Slice`. -/
def insertLe (le : α → α → Bool) (x : α) : List α → List α
  | [] => [x]
  | y :: ys => if le x y then x :: y :: ys else y :: insertLe le x ys

/-- Comparison sort standing in for `sort.Slice`: the result is ordered by
`le`, which is all the Go code relies on. -/
def sortLe (le : α → α → Bool) : List α → List α
  | [] => []
  | x :: xs => insertLe le x (sortLe le xs)

/-- The comparison used to sort methods (`m[i].Pos < m[j].Pos`). -/
def posLe (a b : MethodInfo) : Bool := decide (a.pos ≤ b.pos)

/-- `sm.Methods` for the struct named `g`: collected, then sorted by
position (`sort.Slice(sm.Methods, ...)` in `collectStructMethods`). -/
def methodsOf (f : SymFile) (g : String) : List MethodInfo :=
  sortLe posLe (collectGo g 0 f.items)

/-- Struct map keys: duplicate struct declarations collapse onto one map
entry, so the group names are the declared names with duplicates removed. -/
def groupNames (f : SymFile) : List String := f.decls.dedup

/-! ## Partitions, expected order, `NeedsReordering` (structholder.go) -/

def isCtorM (mi : MethodInfo) : Bool := isConstructor mi.name

/-- `sm.Constructors` (`CategorizeMethods`: constructor tag wins). -/
def constructorsOf (ms : List MethodInfo) : List MethodInfo :=
  ms.filter isCtorM

/-- `sm.ExportedMethods` (exported and not a constructor). -/
def exportedOf (ms : List MethodInfo) : List MethodInfo :=
  ms.filter (fun m => !isCtorM m && isExported m.name)

/-- `sm.UnexportedMethods`. -/
def unexportedOf (ms : List MethodInfo) : List MethodInfo :=
  ms.filter (fun m => !isCtorM m && !isExported m.name)

/-- `StructMethods.GetExpectedOrder`: constructors, then exported, then
unexported, each keeping its relative order. -/
def GetExpectedOrder (ms : List MethodInfo) : List MethodInfo :=
  constructorsOf ms ++ exportedOf ms ++ unexportedOf ms

/-- `StructMethods.NeedsReordering`. -/
def NeedsReordering (ms : List MethodInfo) : Bool :=
  if ms.length ≤ 1 then false
  else
    let expected := GetExpectedOrder ms
    if ms.length ≠ expected.length then false
    else (ms.zip expected).any (fun p => p.1.name ≠ p.2.name)

/-! ## Configuration and violations (config.go, reports.go, detector.go) -/

/-- The configuration fields the core consumes.  (`Write`/`Diff`/`List`/
`Verbose` only steer output I/O in `WriteResult` and are omitted.) -/
structure Config where
  fix : Bool
  checkConstructor : Bool
  checkExported : Bool
deriving DecidableEq

/-- `config.DefaultConfig` restricted to the core fields. -/
def DefaultConfig : Config :=
  { fix := false, checkConstructor := true, checkExported := true }

/-- `config.ViolationType`. -/
inductive ViolationType where
  | ctorOrdering
  | exportedOrdering
deriving DecidableEq

/-- `detector.Violation`.  `methodPos` is `MethodPos` (the offending
method's `fn.Pos()` offset); `targetName` is `SuggestedFix.TargetName`.
The formatted human message is display-only and omitted. -/
structure Violation where
  vtype : ViolationType
  methodPos : Nat
  structName : String
  methodName : String
  targetName : String
deriving DecidableEq

/-- `Detector.checkConstructorOrdering`: for each constructor, report the
first exported method that precedes it (the inner loop breaks after the
first match). -/
def checkConstructorOrdering (sname : String) (ms : List MethodInfo) :
    List Violation :=
  if (constructorsOf ms).length = 0 then []
  else
    (constructorsOf ms).filterMap (fun c =>
      ((exportedOf ms).find? (fun e => e.pos < c.pos)).map (fun e =>
        { vtype := .ctorOrdering, methodPos := c.pos, structName := sname,
          methodName := c.name, targetName := e.name }))

/-- `Detector.checkExportedOrdering`: for each unexported method, report the
first exported method that follows it (break after the first match). -/
def checkExportedOrdering (sname : String) (ms : List MethodInfo) :
    List Violation :=
  (unexportedOf ms).filterMap (fun u =>
    ((exportedOf ms).find? (fun e => u.pos < e.pos)).map (fun e =>
      { vtype := .exportedOrdering, methodPos := u.pos, structName := sname,
        methodName := u.name, targetName := e.name }))

/-- `Detector.checkStructMethods`: nothing for structs with at most one
method; otherwise the enabled checks. -/
def checkStructMethods (cfg : Config) (sname : String) (ms : List MethodInfo) :
    List Violation :=
  if ms.length ≤ 1 then []
  else
    (if cfg.checkConstructor then checkConstructorOrdering sname ms else []) ++
    (if cfg.checkExported then checkExportedOrdering sname ms else [])

/-- The comparison used to sort violations (`Violations[i].MethodPos <
Violations[j].MethodPos`). -/
def vposLe (a b : Violation) : Bool := decide (a.methodPos ≤ b.methodPos)

/-- `Detector.Detect`: collect every struct's violations, then sort by
position.  (Go iterates the struct map in unspecified order and then sorts;
iterating `groupNames` is one such order.) -/
def Detect (cfg : Config) (f : SymFile) : List Violation :=
  sortLe vposLe
    ((groupNames f).flatMap (fun g => checkStructMethods cfg g (methodsOf f g)))

/-! ## Method blocks (`CommentPreserver.GetMethodBlock`) -/

/-- Stand-in for `go/format.Node` re-serialization of a function without its
original comments (the degraded fallback).  Which bytes it produces is
irrelevant to every claim; only *when* it is used matters, so it returns the
function's own text without the doc comment. -/
def formatNode (m : Method) : Bytes := m.body

/-- `src[a:b]`. -/
def sliceBytes (src : Bytes) (a b : Nat) : Bytes := (src.drop a).take (b - a)

/-- `fixer.MethodBlock` (the fields the pipeline reads; the comment-map
derived `LeadingComments` and `PrecedingNewlines` are never consumed). -/
structure MethodBlockM where
  meth : Method
  name : String
  startOff : Nat
  endOff : Nat
  rawText : Bytes
deriving DecidableEq

/-- `CommentPreserver.GetMethodBlock`: extend the start to the authoritative
doc comment (`fn.Doc`) when present, slice the buffer when the offsets are
sane, otherwise fall back to re-serializing the node and reset the start to
the function's own position; trailing newlines of the text are trimmed.
(The Go guard also checks `startOffset >= 0`, which `Nat` gives for free.) -/
def blockStart (mi : MethodInfo) : Nat :=
  if mi.meth.doc ≠ [] ∧ mi.docOff < mi.pos then mi.docOff else mi.pos

def GetMethodBlock (mi : MethodInfo) (src : Bytes) : MethodBlockM :=
  let start := blockStart mi
  let startOffset := start
  let endOffset := mi.endPos
  if endOffset ≤ src.length ∧ startOffset ≤ endOffset then
    { meth := mi.meth, name := mi.meth.name, startOff := start,
      endOff := mi.endPos,
      rawText := trimNlRight (sliceBytes src startOffset endOffset) }
  else
    { meth := mi.meth, name := mi.meth.name, startOff := mi.pos,
      endOff := mi.endPos, rawText := trimNlRight (formatNode mi.meth) }

/-! ## Slot replacements and reordering (reorder.go) -/

/-- `fixer.slotReplacement` (`end` is a Lean keyword; the field is `stop`). -/
structure Rep where
  start : Nat
  stop : Nat
  text : Bytes
deriving DecidableEq

/-- `fixer.structRegion`. -/
structure StructRegion where
  name : String
  methods : List MethodInfo
  blocks : List MethodBlockM
deriving DecidableEq

/-- `Reorderer.buildStructRegion`. -/
def buildStructRegion (f : SymFile) (src : Bytes) (g : String) :
    Except String StructRegion :=
  let ms := methodsOf f g
  if ms.length = 0 then .error "struct has no methods"
  else .ok { name := g, methods := ms, blocks := ms.map (fun mi => GetMethodBlock mi src) }

/-- The `byName` map of `buildSlotReplacements`: a Go map filled by a loop
over the blocks, so a later block with the same name overwrites an earlier
one. -/
def byNameLookup (blocks : List MethodBlockM) (n : String) : Option Bytes :=
  blocks.foldl (fun acc b => if b.name = n then some b.rawText else acc) none

/-- The slot loop of `buildSlotReplacements`: slot `i` keeps its own byte
range and receives the raw text of the method the expected order puts at
position `i`; a missing name aborts with an error. -/
def buildSlots (blocks : List MethodBlockM) :
    List (MethodBlockM × MethodInfo) → Except String (List Rep)
  | [] => .ok []
  | (b, e) :: rest =>
    match byNameLookup blocks e.name with
    | none => .error "method not found in source map"
    | some t =>
      match buildSlots blocks rest with
      | .error msg => .error msg
      | .ok reps => .ok ({ start := b.startOff, stop := b.endOff, text := t } :: reps)

/-- `Reorderer.buildSlotReplacements`. -/
def buildSlotReplacements (region : StructRegion) : Except String (List Rep) :=
  let expected := GetExpectedOrder region.methods
  if expected.length ≠ region.blocks.length then .error "method count mismatch"
  else buildSlots region.blocks (region.blocks.zip expected)

/-- The collection loop of `ReorderStructMethods`: per struct that needs
reordering, build the region and its slot replacements; errors abort the
whole file before anything is spliced. -/
def collectReps (f : SymFile) (src : Bytes) : List String → Except String (List Rep)
  | [] => .ok []
  | g :: gs =>
    if !NeedsReordering (methodsOf f g) then collectReps f src gs
    else
      match buildStructRegion f src g with
      | .error e => .error e
      | .ok region =>
        match buildSlotReplacements region with
        | .error e => .error e
        | .ok reps =>
          match collectReps f src gs with
          | .error e => .error e
          | .ok rest => .ok (reps ++ rest)

/-- The comparison for the descending sort (`sort.Slice` with
`replacements[i].start > replacements[j].start`). -/
def repGe (a b : Rep) : Bool := decide (b.start ≤ a.start)

/-- Sort replacements descending by start offset. -/
def sortDesc (l : List Rep) : List Rep := sortLe repGe l

/-- `Reorderer.ReorderStructMethods`: quick no-op check, collect all slot
replacements, sort descending by start, splice back-to-front into a copy of
the source. -/
def ReorderStructMethods (f : SymFile) (src : Bytes) (structs : List String) :
    Except String Bytes :=
  if structs.all (fun g => !NeedsReordering (methodsOf f g)) then .ok src
  else
    match collectReps f src structs with
    | .error e => .error e
    | .ok reps =>
      .ok ((sortDesc reps).foldl (fun acc r => spliceBytes acc r.start r.stop r.text) src)

/-! ## Orchestrator (`Fixer.fixFile`, `Fixer.ProcessFile`) -/

/-- The struct names whose methods need reordering (the filter loop of
`fixFile`). -/
def needingGroups (f : SymFile) : List String :=
  (groupNames f).filter (fun g => NeedsReordering (methodsOf f g))

/-- `Fixer.fixFile`: nothing to reorder means the source comes back
unchanged; otherwise run the reorder engine on the filtered structs. -/
def fixFile (f : SymFile) (src : Bytes) : Except String Bytes :=
  let needs := needingGroups f
  if needs.length = 0 then .ok src
  else ReorderStructMethods f src needs

/-- `fixer.Result` for one file (the file path and I/O errors belong to the
external orchestration; parse failures are upstream of this model). -/
structure FixResult where
  violations : Nat
  fixed : Bool
  originalContent : Bytes
  fixedContent : Option Bytes
  error : Option String
deriving DecidableEq

/-- `Fixer.ProcessFile` after the external read/parse steps: detect, short
circuit when there is nothing to do or fixing is off, otherwise fix. -/
def ProcessFile (cfg : Config) (f : SymFile) : FixResult :=
  let src := render f
  let report := Detect cfg f
  if report.length = 0 ∨ cfg.fix = false then
    { violations := report.length, fixed := false, originalContent := src,
      fixedContent := none, error := none }
  else
    match fixFile f src with
    | .error e =>
      { violations := report.length, fixed := false, originalContent := src,
        fixedContent := none, error := some e }
    | .ok out =>
      { violations := report.length, fixed := true, originalContent := src,
        fixedContent := some out, error := none }

/-! ## The symbolic effect of the fix

`applyItems` states what the byte-splice engine achieves on the file layout:
for every struct being reordered, its j-th method slot (in file order)
receives the method the expected order puts at position j; everything else
is untouched.  `canonItems` lists the corresponding slot replacements in
file order.  Both walk the layout with a state assigning to each struct the
not-yet-placed expected methods. -/

/-- Per-struct expected method sequences for the structs being reordered. -/
def expAssign (f : SymFile) : String → Option (List Method) :=
  fun g =>
    if g ∈ needingGroups f then
      some ((GetExpectedOrder (methodsOf f g)).map MethodInfo.meth)
    else none

/-- Replace each reordered struct's slots by the assigned methods. -/
def applyItems (σ : String → Option (List Method)) : List Item → List Item
  | [] => []
  | .gap t :: rest => .gap t :: applyItems σ rest
  | .method m :: rest =>
    match σ m.recv with
    | some (h :: tl) =>
      .method h :: applyItems (Function.update σ m.recv (some tl)) rest
    | _ => .method m :: applyItems σ rest

/-- The slot replacements of the whole file, in file order. -/
def canonItems (σ : String → Option (List Method)) : Nat → List Item → List Rep
  | _, [] => []
  | base, .gap t :: rest => canonItems σ (base + t.length) rest
  | base, .method m :: rest =>
    match σ m.recv with
    | some (h :: tl) =>
      { start := base, stop := base + (m.doc.length + m.body.length),
        text := trimNlRight (h.doc ++ h.body) } ::
      canonItems (Function.update σ m.recv (some tl))
        (base + (m.doc.length + m.body.length)) rest
    | _ => canonItems σ (base + (m.doc.length + m.body.length)) rest

/-- The fixed file, as a symbolic layout (re-parsing the fixed bytes is
modelled as the identity on this layout). -/
def applyFix (f : SymFile) : SymFile :=
  { decls := f.decls, items := applyItems (expAssign f) f.items }

/-! ## Well-formedness of a parsed file

Facts every file produced by `go/parser` satisfies: a function's text is
nonempty and ends at its closing brace (so never with a newline byte), and
within one struct the parser-reported method names are the declared names —
for a file accepted by the compiler, distinct within each receiver type. -/

def goodMethod (m : Method) : Prop :=
  m.body ≠ [] ∧ m.body.getLast? ≠ some '\n'

instance (m : Method) : Decidable (goodMethod m) := by
  unfold goodMethod; infer_instance

def itemOk : Item → Prop
  | .gap _ => True
  | .method m => goodMethod m

instance (it : Item) : Decidable (itemOk it) := by
  cases it <;> simp only [itemOk] <;> infer_instance

def wfItems (items : List Item) : Prop :=
  ∀ it ∈ items, itemOk it

instance (items : List Item) : Decidable (wfItems items) := by
  unfold wfItems; infer_instance

theorem wfItems_method {items : List Item} {m : Method}
    (h : wfItems items) (hm : Item.method m ∈ items) : goodMethod m :=
  h (Item.method m) hm

def wfNames (f : SymFile) : Prop :=
  ∀ g ∈ groupNames f, ((methodsOf f g).map MethodInfo.name).Nodup

instance (f : SymFile) : Decidable (wfNames f) := by
  unfold wfNames; infer_instance

/-- Well-formed parsed file. -/
def wf (f : SymFile) : Prop := wfItems f.items ∧ wfNames f

instance (f : SymFile) : Decidable (wf f) := by
  unfold wf; infer_instance

/-! # Lemmas -/

/-! ## The comparison sort -/

theorem insertLe_perm (le : α → α → Bool) (x : α) (l : List α) :
    (insertLe le x l).Perm (x :: l) := by
  induction l with
  | nil => exact List.Perm.refl _
  | cons y ys ih =>
    simp only [insertLe]
    split
    · exact List.Perm.refl _
    · exact (ih.cons y).trans (List.Perm.swap x y ys)

theorem sortLe_perm (le : α → α → Bool) (l : List α) : (sortLe le l).Perm l := by
  induction l with
  | nil => exact List.Perm.refl _
  | cons x xs ih => exact (insertLe_perm le x (sortLe le xs)).trans (ih.cons x)

theorem mem_insertLe {le : α → α → Bool} {x a : α} {l : List α}
    (h : a ∈ insertLe le x l) : a = x ∨ a ∈ l := by
  have := (insertLe_perm le x l).mem_iff.mp h
  simpa using this

theorem insertLe_pairwise {le : α → α → Bool}
    (htot : ∀ a b, le a b = false → le b a = true)
    (htrans : ∀ a b c, le a b = true → le b c = true → le a c = true)
    (x : α) {l : List α}
    (h : l.Pairwise (fun a b => le a b = true)) :
    (insertLe le x l).Pairwise (fun a b => le a b = true) := by
  induction l with
  | nil => simp [insertLe]
  | cons y ys ih =>
    have hy := (List.pairwise_cons.mp h).1
    have hys := (List.pairwise_cons.mp h).2
    simp only [insertLe]
    cases hxy : le x y with
    | false =>
      simp only [Bool.false_eq_true, if_false]
      refine List.Pairwise.cons ?_ (ih hys)
      intro a ha
      rcases mem_insertLe ha with rfl | ha
      · exact htot _ _ hxy
      · exact hy a ha
    | true =>
      simp only [if_true]
      refine List.Pairwise.cons ?_ (List.Pairwise.cons hy hys)
      intro a ha
      rcases List.mem_cons.mp ha with rfl | ha
      · exact hxy
      · exact htrans _ _ _ hxy (hy a ha)

theorem sortLe_pairwise {le : α → α → Bool}
    (htot : ∀ a b, le a b = false → le b a = true)
    (htrans : ∀ a b c, le a b = true → le b c = true → le a c = true)
    (l : List α) :
    (sortLe le l).Pairwise (fun a b => le a b = true) := by
  induction l with
  | nil => simp [sortLe]
  | cons x xs ih => exact insertLe_pairwise htot htrans x ih

theorem sortLe_eq_self {le : α → α → Bool} {l : List α}
    (h : l.Pairwise (fun a b => le a b = true)) : sortLe le l = l := by
  induction l with
  | nil => rfl
  | cons x xs ih =>
    have hx := (List.pairwise_cons.mp h).1
    have hxs := (List.pairwise_cons.mp h).2
    simp only [sortLe, ih hxs]
    cases xs with
    | nil => rfl
    | cons y ys => simp [insertLe, hx y (by simp)]

/-! ## Collected methods: layout facts -/

theorem collectGo_mem {g : String} {base : Nat} {items : List Item}
    {mi : MethodInfo} (h : mi ∈ collectGo g base items) :
    mi.meth.recv = g ∧ base ≤ mi.docOff
    ∧ mi.pos = mi.docOff + mi.meth.doc.length
    ∧ mi.endPos = mi.pos + mi.meth.body.length
    ∧ Item.method mi.meth ∈ items := by
  induction items generalizing base with
  | nil => cases h
  | cons it rest ih =>
    cases it with
    | gap t =>
      have := ih h
      exact ⟨this.1, le_trans (Nat.le_add_right _ _) this.2.1, this.2.2.1,
        this.2.2.2.1, List.mem_cons_of_mem _ this.2.2.2.2⟩
    | method m =>
      simp only [collectGo, List.mem_append] at h
      rcases h with h | h
      · by_cases hr : m.recv = g
        · rw [if_pos hr] at h
          simp only [List.mem_singleton] at h
          subst h
          exact ⟨hr, le_refl _, rfl, rfl, List.mem_cons_self _ _⟩
        · rw [if_neg hr] at h
          cases h
      · have := ih h
        refine ⟨this.1, ?_, this.2.2.1, this.2.2.2.1,
          List.mem_cons_of_mem _ this.2.2.2.2⟩
        have := this.2.1
        omega

theorem collectGo_pairwise_le (g : String) (base : Nat) (items : List Item) :
    (collectGo g base items).Pairwise (fun a b => a.pos ≤ b.pos) := by
  induction items generalizing base with
  | nil => exact List.Pairwise.nil
  | cons it rest ih =>
    cases it with
    | gap t => exact ih (base + t.length)
    | method m =>
      simp only [collectGo]
      refine List.pairwise_append.mpr ⟨?_, ih _, ?_⟩
      · split <;> simp
      · intro a ha b hb
        have hbf := collectGo_mem hb
        have ha' : a = MethodInfo.mk m base (base + m.doc.length)
            (base + m.doc.length + m.body.length) := by
          by_cases hr : m.recv = g
          · rw [if_pos hr] at ha; simpa using ha
          · rw [if_neg hr] at ha; cases ha
        subst ha'
        have h1 : base + m.doc.length ≤ base + m.doc.length + m.body.length := by omega
        have h2 : b.docOff ≤ b.pos := by
          rw [hbf.2.2.1]; omega
        exact le_trans h1 (le_trans hbf.2.1 h2)

theorem collectGo_pairwise_lt {items : List Item} (hwf : wfItems items)
    (g : String) (base : Nat) :
    (collectGo g base items).Pairwise (fun a b => a.pos < b.pos) := by
  induction items generalizing base with
  | nil => exact List.Pairwise.nil
  | cons it rest ih =>
    have hwrest : wfItems rest := fun x hx => hwf x (List.mem_cons_of_mem _ hx)
    cases it with
    | gap t => exact ih hwrest (base + t.length)
    | method m =>
      have hgood : goodMethod m := hwf (Item.method m) (List.mem_cons_self _ _)
      have hbody : 1 ≤ m.body.length := by
        cases hb : m.body with
        | nil => exact absurd hb hgood.1
        | cons c cs => simp
      simp only [collectGo]
      refine List.pairwise_append.mpr ⟨?_, ih hwrest _, ?_⟩
      · split <;> simp
      · intro a ha b hb
        have hbf := collectGo_mem hb
        have ha' : a = MethodInfo.mk m base (base + m.doc.length)
            (base + m.doc.length + m.body.length) := by
          by_cases hr : m.recv = g
          · rw [if_pos hr] at ha; simpa using ha
          · rw [if_neg hr] at ha; cases ha
        subst ha'
        have h2 : b.docOff ≤ b.pos := by
          rw [hbf.2.2.1]; omega
        have := hbf.2.1
        simp only [MethodInfo.pos] at *
        omega

/-- `sm.Methods` is the collected list itself: collection order is already
ascending in position, so the sort is the identity. -/
theorem methodsOf_eq_collectGo (f : SymFile) (g : String) :
    methodsOf f g = collectGo g 0 f.items := by
  unfold methodsOf
  apply sortLe_eq_self
  exact (collectGo_pairwise_le g 0 f.items).imp
    (fun h => decide_eq_true h)

/-- Two collected methods (of any groups) with the same position are the
same method of the same group. -/
theorem collectGo_pos_inj {items : List Item} (hwf : wfItems items)
    {g g' : String} {base : Nat} {mi mi' : MethodInfo}
    (h : mi ∈ collectGo g base items) (h' : mi' ∈ collectGo g' base items)
    (hp : mi.pos = mi'.pos) : g = g' ∧ mi = mi' := by
  induction items generalizing base with
  | nil => cases h
  | cons it rest ih =>
    have hwrest : wfItems rest := fun x hx => hwf x (List.mem_cons_of_mem _ hx)
    cases it with
    | gap t => exact ih hwrest h h'
    | method m =>
      have hgood : goodMethod m := hwf (Item.method m) (List.mem_cons_self _ _)
      have hbody : 1 ≤ m.body.length := by
        cases hb : m.body with
        | nil => exact absurd hb hgood.1
        | cons c cs => simp
      simp only [collectGo, List.mem_append] at h h'
      rcases h with h | h <;> rcases h' with h' | h'
      · by_cases hr : m.recv = g
        · rw [if_pos hr] at h
          by_cases hr' : m.recv = g'
          · rw [if_pos hr'] at h'
            simp only [List.mem_singleton] at h h'
            exact ⟨hr ▸ hr', h.trans h'.symm⟩
          · rw [if_neg hr'] at h'; cases h'
        · rw [if_neg hr] at h; cases h
      · exfalso
        have hm : mi.pos = base + m.doc.length := by
          by_cases hr : m.recv = g
          · rw [if_pos hr] at h; simp only [List.mem_singleton] at h; rw [h]
          · rw [if_neg hr] at h; cases h
        have hf := collectGo_mem h'
        have : mi'.docOff ≤ mi'.pos := by rw [hf.2.2.1]; omega
        have := hf.2.1
        omega
      · exfalso
        have hm : mi'.pos = base + m.doc.length := by
          by_cases hr : m.recv = g'
          · rw [if_pos hr] at h'; simp only [List.mem_singleton] at h'; rw [h']
          · rw [if_neg hr] at h'; cases h'
        have hf := collectGo_mem h
        have : mi.docOff ≤ mi.pos := by rw [hf.2.2.1]; omega
        have := hf.2.1
        omega
      · exact ih hwrest h h'

/-! # Claim theorems (first batch) -/

/-- **C6.** For all inputs with `0 ≤ start ≤ stop ≤ len(buffer)`, the splice
primitive returns exactly `buffer[:start] ++ replacement ++ buffer[stop:]`;
its length is `len(buffer) - (stop - start) + len(replacement)`; the bytes
before `start` are preserved verbatim, and the bytes originally from `stop`
on reappear verbatim shifted to position `start + len(replacement)`. -/
theorem c6_spliceBytes_contract (buffer : Bytes) (start stop : Nat)
    (replacement : Bytes) (h1 : start ≤ stop) (h2 : stop ≤ buffer.length) :
    spliceBytes buffer start stop replacement
        = buffer.take start ++ replacement ++ buffer.drop stop
    ∧ (spliceBytes buffer start stop replacement).length
        = buffer.length - (stop - start) + replacement.length
    ∧ (spliceBytes buffer start stop replacement).take start = buffer.take start
    ∧ (spliceBytes buffer start stop replacement).drop (start + replacement.length)
        = buffer.drop stop := by
  have hs : start ≤ buffer.length := le_trans h1 h2
  have hlt : (buffer.take start).length = start := by
    simp [List.length_take, Nat.min_eq_left hs]
  refine ⟨rfl, ?_, ?_, ?_⟩
  · simp only [spliceBytes, List.length_append, hlt, List.length_drop]
    omega
  · have : spliceBytes buffer start stop replacement
        = buffer.take start ++ (replacement ++ buffer.drop stop) := by
      simp [spliceBytes]
    rw [this]
    have := List.take_left (buffer.take start) (replacement ++ buffer.drop stop)
    rwa [hlt] at this
  · have : spliceBytes buffer start stop replacement
        = (buffer.take start ++ replacement) ++ buffer.drop stop := by
      simp [spliceBytes]
    rw [this]
    have hl : start + replacement.length = (buffer.take start ++ replacement).length := by
      simp [List.length_append, hlt]
    rw [hl]
    exact List.drop_left _ _

/-- Witness for C6 at a concrete input. -/
theorem c6_spliceBytes_contract_witness :
    2 ≤ 4 ∧ 4 ≤ ("abcdef".data).length ∧
    (spliceBytes "abcdef".data 2 4 "XY".data
        = ("abcdef".data).take 2 ++ "XY".data ++ ("abcdef".data).drop 4
      ∧ (spliceBytes "abcdef".data 2 4 "XY".data).length
          = ("abcdef".data).length - (4 - 2) + ("XY".data).length
      ∧ (spliceBytes "abcdef".data 2 4 "XY".data).take 2 = ("abcdef".data).take 2
      ∧ (spliceBytes "abcdef".data 2 4 "XY".data).drop (2 + ("XY".data).length)
          = ("abcdef".data).drop 4) :=
  ⟨by decide, by decide,
    c6_spliceBytes_contract "abcdef".data 2 4 "XY".data (by decide) (by decide)⟩

/-- **C2 (evaluation at the failing input).**  `GetReceiverTypeName` is not
recursive: a pointer to a generic instantiation (`*Container[T]`, i.e.
`StarExpr` over `IndexExpr`) and a multi-parameter instantiation
(`Map[K, V]`, i.e. `IndexListExpr`, with or without a pointer) all fall
through to `""`, so such methods are never attached to their TypeGroup —
contradicting the repository's own `TestGetReceiverTypeName` (cases
`StarExpr_IndexExpr_generic_pointer`, `IndexListExpr_multi_type_param`,
`StarExpr_IndexListExpr`) and `testdata/src/generics.go`.  The supported
shapes are the plain name, pointer-to-name and one-parameter
instantiation. -/
theorem c2_getReceiverTypeName_eval :
    GetReceiverTypeName (.star (.index (.ident "Container"))) = ""
    ∧ GetReceiverTypeName (.indexList (.ident "Map")) = ""
    ∧ GetReceiverTypeName (.star (.indexList (.ident "Map"))) = ""
    ∧ GetReceiverTypeName (.ident "Foo") = "Foo"
    ∧ GetReceiverTypeName (.star (.ident "Foo")) = "Foo"
    ∧ GetReceiverTypeName (.index (.ident "Container")) = "Container" :=
  ⟨rfl, rfl, rfl, rfl, rfl, rfl⟩

/-- **C8.**  A method block's end is always the function's own end position;
without a doc comment the block starts exactly at the function's position;
with an attached doc comment (which the parser places strictly before the
function) and sane offsets, the block starts at the doc comment's start and
the text is the literal slice of the buffer; and when the computed offsets
are out of range or inverted, the resolver falls back to re-serializing the
node without its original doc comment and resets the start to the
function's own position instead of slicing the buffer. -/
theorem c8_getMethodBlock_contract (mi : MethodInfo) (src : Bytes) :
    (GetMethodBlock mi src).endOff = mi.endPos
    ∧ (mi.meth.doc = [] → (GetMethodBlock mi src).startOff = mi.pos)
    ∧ (mi.meth.doc ≠ [] → mi.docOff < mi.pos →
        mi.endPos ≤ src.length → mi.docOff ≤ mi.endPos →
        (GetMethodBlock mi src).startOff = mi.docOff
        ∧ (GetMethodBlock mi src).rawText
            = trimNlRight (sliceBytes src mi.docOff mi.endPos))
    ∧ (¬ (mi.endPos ≤ src.length ∧ blockStart mi ≤ mi.endPos) →
        (GetMethodBlock mi src).startOff = mi.pos
        ∧ (GetMethodBlock mi src).rawText = trimNlRight (formatNode mi.meth)) := by
  refine ⟨?_, ?_, ?_, ?_⟩
  · simp only [GetMethodBlock]
    split <;> rfl
  · intro hdoc
    have hbs : blockStart mi = mi.pos := by
      simp [blockStart, hdoc]
    simp only [GetMethodBlock, hbs]
    split <;> rfl
  · intro hdoc hlt hr hmono
    have hbs : blockStart mi = mi.docOff := by
      simp [blockStart, hdoc, hlt]
    simp only [GetMethodBlock, hbs]
    rw [if_pos ⟨hr, hmono⟩]
    exact ⟨rfl, rfl⟩
  · intro hbad
    simp only [GetMethodBlock]
    rw [if_neg hbad]
    exact ⟨rfl, rfl⟩

/-- Concrete `MethodInfo` for the C8 witness (in-range offsets). -/
def c8mi : MethodInfo :=
  { meth := { recv := "S", name := "Run", doc := "// d\n".data,
              body := "func (s S) Run() {}".data },
    docOff := 3, pos := 8, endPos := 27 }

/-- Concrete `MethodInfo` for the C8 witness (inverted offsets). -/
def c8miBad : MethodInfo :=
  { meth := { recv := "S", name := "Run", doc := [],
              body := "func (s S) Run() {}".data },
    docOff := 9, pos := 9, endPos := 5 }

/-- Witness for C8: the doc-extended case at sane offsets, and the fallback
at inverted offsets, both at concrete inputs. -/
theorem c8_getMethodBlock_contract_witness :
    c8mi.meth.doc ≠ [] ∧ c8mi.docOff < c8mi.pos
    ∧ c8mi.endPos ≤ ("abc// d\nfunc (s S) Run() {}\n".data).length
    ∧ c8mi.docOff ≤ c8mi.endPos
    ∧ ((GetMethodBlock c8mi "abc// d\nfunc (s S) Run() {}\n".data).startOff = c8mi.docOff
      ∧ (GetMethodBlock c8mi "abc// d\nfunc (s S) Run() {}\n".data).rawText
          = trimNlRight (sliceBytes "abc// d\nfunc (s S) Run() {}\n".data c8mi.docOff c8mi.endPos))
    ∧ ¬ (c8miBad.endPos ≤ ([] : Bytes).length ∧ blockStart c8miBad ≤ c8miBad.endPos)
    ∧ ((GetMethodBlock c8miBad []).startOff = c8miBad.pos
      ∧ (GetMethodBlock c8miBad []).rawText = trimNlRight (formatNode c8miBad.meth)) :=
  ⟨by decide, by decide, by decide, by decide,
    (c8_getMethodBlock_contract c8mi "abc// d\nfunc (s S) Run() {}\n".data).2.2.1
      (by decide) (by decide) (by decide) (by decide),
    by decide,
    (c8_getMethodBlock_contract c8miBad []).2.2.2 (by decide)⟩

/-! ## Detector facts (towards C7 and C1) -/

theorem filterMap_key_sublist {α β γ : Type _} {fn : α → Option β}
    {k : β → γ} {p : α → γ} (h : ∀ a b, fn a = some b → k b = p a)
    (l : List α) : ((l.filterMap fn).map k).Sublist (l.map p) := by
  induction l with
  | nil => simp
  | cons a l ih =>
    rw [List.filterMap_cons]
    cases hfa : fn a with
    | none =>
      simp only [List.map_cons]
      exact ih.cons _
    | some b =>
      simp only [List.map_cons, h a b hfa]
      exact ih.cons₂ _

theorem checkCtor_pos_sublist (s : String) (ms : List MethodInfo) :
    ((checkConstructorOrdering s ms).map Violation.methodPos).Sublist
      ((constructorsOf ms).map MethodInfo.pos) := by
  unfold checkConstructorOrdering
  split
  · simp
  · refine filterMap_key_sublist ?_ _
    intro c v hv
    rcases Option.map_eq_some'.mp hv with ⟨e, _, hfe⟩
    rw [← hfe]

theorem checkExp_pos_sublist (s : String) (ms : List MethodInfo) :
    ((checkExportedOrdering s ms).map Violation.methodPos).Sublist
      ((unexportedOf ms).map MethodInfo.pos) := by
  unfold checkExportedOrdering
  refine filterMap_key_sublist ?_ _
  intro u v hv
  rcases Option.map_eq_some'.mp hv with ⟨e, _, hfe⟩
  rw [← hfe]

theorem checkStruct_pos_mem {cfg : Config} {s : String} {ms : List MethodInfo}
    {v : Violation} (hv : v ∈ checkStructMethods cfg s ms) :
    v.methodPos ∈ ms.map MethodInfo.pos := by
  unfold checkStructMethods at hv
  split at hv
  · cases hv
  · rcases List.mem_append.mp hv with hv | hv
    · split at hv
      · have h1 : v.methodPos ∈ (checkConstructorOrdering s ms).map Violation.methodPos :=
          List.mem_map_of_mem _ hv
        have h2 := (checkCtor_pos_sublist s ms).subset h1
        exact (((List.filter_sublist ms).map MethodInfo.pos).subset) h2
      · cases hv
    · split at hv
      · have h1 : v.methodPos ∈ (checkExportedOrdering s ms).map Violation.methodPos :=
          List.mem_map_of_mem _ hv
        have h2 := (checkExp_pos_sublist s ms).subset h1
        exact (((List.filter_sublist ms).map MethodInfo.pos).subset) h2
      · cases hv

theorem checkStruct_pos_nodup {cfg : Config} {s : String} {ms : List MethodInfo}
    (hnd : (ms.map MethodInfo.pos).Nodup) :
    ((checkStructMethods cfg s ms).map Violation.methodPos).Nodup := by
  unfold checkStructMethods
  split
  · simp
  · rw [List.map_append]
    have hctor : ((checkConstructorOrdering s ms).map Violation.methodPos).Nodup :=
      ((checkCtor_pos_sublist s ms).trans
        ((List.filter_sublist ms).map MethodInfo.pos)).nodup hnd
    have hexp : ((checkExportedOrdering s ms).map Violation.methodPos).Nodup :=
      ((checkExp_pos_sublist s ms).trans
        ((List.filter_sublist ms).map MethodInfo.pos)).nodup hnd
    have hdis : ∀ x, x ∈ (checkConstructorOrdering s ms).map Violation.methodPos →
        x ∈ (checkExportedOrdering s ms).map Violation.methodPos → False := by
      intro x hx hx'
      have hxc := (checkCtor_pos_sublist s ms).subset hx
      have hxe := (checkExp_pos_sublist s ms).subset hx'
      rcases List.mem_map.mp hxc with ⟨a, ha, hax⟩
      rcases List.mem_map.mp hxe with ⟨b, hb, hbx⟩
      have haf := List.mem_filter.mp ha
      have hbf := List.mem_filter.mp hb
      have hab : a = b :=
        List.inj_on_of_nodup_map hnd haf.1 hbf.1 (hax.trans hbx.symm)
      have h1 : isCtorM a = true := haf.2
      have h2 : (!isCtorM b && !isExported b.name) = true := hbf.2
      rw [hab] at h1
      simp [h1] at h2
    split
    · split
      · exact List.Nodup.append hctor hexp hdis
      · simpa using hctor
    · split
      · simpa using hexp
      · simp

theorem methodsOf_pos_nodup {f : SymFile} (hwf : wfItems f.items) (g : String) :
    ((methodsOf f g).map MethodInfo.pos).Nodup := by
  rw [methodsOf_eq_collectGo]
  have := collectGo_pairwise_lt hwf g 0
  exact List.pairwise_map.mpr (this.imp (fun h => Nat.ne_of_lt h))

theorem detect_pre_nodup {cfg : Config} {f : SymFile} (hwf : wfItems f.items) :
    ∀ gs : List String, gs.Nodup →
    ((gs.flatMap (fun g => checkStructMethods cfg g (methodsOf f g))).map
      Violation.methodPos).Nodup := by
  intro gs hnd
  induction gs with
  | nil => simp
  | cons g gs ih =>
    rw [List.flatMap_cons, List.map_append]
    have hg := (List.nodup_cons.mp hnd).1
    have hgs := (List.nodup_cons.mp hnd).2
    refine List.Nodup.append (checkStruct_pos_nodup (methodsOf_pos_nodup hwf g))
      (ih hgs) ?_
    intro x hx hx'
    rcases List.mem_map.mp hx with ⟨v, hv, hvx⟩
    rcases List.mem_map.mp hx' with ⟨w, hw, hwx⟩
    rcases List.mem_flatMap.mp hw with ⟨g', hg', hwg⟩
    have h1 := checkStruct_pos_mem hv
    have h2 := checkStruct_pos_mem hwg
    rcases List.mem_map.mp h1 with ⟨a, ha, hax⟩
    rcases List.mem_map.mp h2 with ⟨b, hb, hbx⟩
    rw [methodsOf_eq_collectGo] at ha hb
    have hpos : a.pos = b.pos := by
      rw [hax, hbx, hvx, hwx]
    have := (collectGo_pos_inj hwf ha hb hpos).1
    exact hg (this ▸ hg')

/-- **C7.**  The violation list returned by `Detect` is sorted ascending by
the offending method's start position, and (for a well-formed parse, whose
method declarations occupy nonempty, consecutive byte ranges) carries at
most one violation per offending method: the offending positions are
pairwise distinct, because the constructor check reports each constructor
at most once (breaking at the first exported method before it) and the
export check reports each unexported method at most once (breaking at the
first exported method after it). -/
theorem c7_detect_sorted_one_per_method (cfg : Config) (f : SymFile) :
    (Detect cfg f).Pairwise (fun a b => a.methodPos ≤ b.methodPos)
    ∧ (wfItems f.items → ((Detect cfg f).map Violation.methodPos).Nodup) := by
  constructor
  · have htot : ∀ a b : Violation, vposLe a b = false → vposLe b a = true := by
      intro a b h
      simp only [vposLe, decide_eq_false_iff_not] at h
      simp only [vposLe, decide_eq_true_eq]
      omega
    have htrans : ∀ a b c : Violation,
        vposLe a b = true → vposLe b c = true → vposLe a c = true := by
      intro a b c h1 h2
      simp only [vposLe, decide_eq_true_eq] at h1 h2 ⊢
      omega
    exact (sortLe_pairwise htot htrans _).imp (fun h => of_decide_eq_true h)
  · intro hwf
    have hperm := (sortLe_perm vposLe
      ((groupNames f).flatMap (fun g => checkStructMethods cfg g (methodsOf f g)))).map
      Violation.methodPos
    exact hperm.nodup_iff.mpr (detect_pre_nodup hwf _ (List.nodup_dedup _))

/-- The spec's concrete scenario: a struct `S` with methods `helper`
(unexported), `Run` (exported, with a doc comment) and `NewS` (constructor),
in that source order, with a standalone `func NewS()` in a gap. -/
def exFile : SymFile :=
  { decls := ["S"],
    items := [
      .gap ("package p\n\ntype S struct \x7b\x7d\n\n".data),
      .method { recv := "S", name := "helper", doc := [],
                body := ("func (s S) helper() \x7b\x7d".data) },
      .gap ("\n\n".data),
      .method { recv := "S", name := "Run", doc := ("// Run runs.\n".data),
                body := ("func (s S) Run() \x7b\x7d".data) },
      .gap ("\n\nfunc NewS() \x7b\x7d\n\n".data),
      .method { recv := "S", name := "NewS", doc := [],
                body := ("func (s *S) NewS() \x7b\x7d".data) },
      .gap ("\n".data) ] }

/-- Witness for C7 at the concrete example file. -/
theorem c7_detect_sorted_one_per_method_witness :
    wfItems exFile.items
    ∧ (Detect DefaultConfig exFile).Pairwise (fun a b => a.methodPos ≤ b.methodPos)
    ∧ ((Detect DefaultConfig exFile).map Violation.methodPos).Nodup :=
  ⟨by decide, (c7_detect_sorted_one_per_method DefaultConfig exFile).1,
    (c7_detect_sorted_one_per_method DefaultConfig exFile).2 (by decide)⟩

/-! ## Block structure of the expected order -/

theorem filter_blocks_first {α : Type _} {p : α → Bool} {P Q R : List α}
    (hP : ∀ x ∈ P, p x = true) (hQ : ∀ x ∈ Q, p x = false)
    (hR : ∀ x ∈ R, p x = false) : (P ++ Q ++ R).filter p = P := by
  rw [List.filter_append, List.filter_append]
  rw [List.filter_eq_self.mpr hP]
  rw [List.filter_eq_nil_iff.mpr (by intro a ha; simp [hQ a ha])]
  rw [List.filter_eq_nil_iff.mpr (by intro a ha; simp [hR a ha])]
  simp

theorem filter_blocks_mid {α : Type _} {p : α → Bool} {P Q R : List α}
    (hP : ∀ x ∈ P, p x = false) (hQ : ∀ x ∈ Q, p x = true)
    (hR : ∀ x ∈ R, p x = false) : (P ++ Q ++ R).filter p = Q := by
  rw [List.filter_append, List.filter_append]
  rw [List.filter_eq_self.mpr hQ]
  rw [List.filter_eq_nil_iff.mpr (by intro a ha; simp [hP a ha])]
  rw [List.filter_eq_nil_iff.mpr (by intro a ha; simp [hR a ha])]
  simp

theorem filter_blocks_last {α : Type _} {p : α → Bool} {P Q R : List α}
    (hP : ∀ x ∈ P, p x = false) (hQ : ∀ x ∈ Q, p x = false)
    (hR : ∀ x ∈ R, p x = true) : (P ++ Q ++ R).filter p = R := by
  rw [List.filter_append, List.filter_append]
  rw [List.filter_eq_self.mpr hR]
  rw [List.filter_eq_nil_iff.mpr (by intro a ha; simp [hP a ha])]
  rw [List.filter_eq_nil_iff.mpr (by intro a ha; simp [hQ a ha])]
  simp

/-- The expected order at the level of method names. -/
def orderNames (ns : List String) : List String :=
  ns.filter isConstructor
    ++ ns.filter (fun n => !isConstructor n && isExported n)
    ++ ns.filter (fun n => !isConstructor n && !isExported n)

theorem expectedOrder_map_name (ms : List MethodInfo) :
    (GetExpectedOrder ms).map MethodInfo.name = orderNames (ms.map MethodInfo.name) := by
  simp only [GetExpectedOrder, orderNames, List.map_append]
  rw [List.filter_map, List.filter_map, List.filter_map]
  rfl

theorem orderNames_idem (ns : List String) : orderNames (orderNames ns) = orderNames ns := by
  have hA : ∀ x ∈ ns.filter isConstructor, isConstructor x = true :=
    fun x hx => (List.mem_filter.mp hx).2
  have hB : ∀ x ∈ ns.filter (fun n => !isConstructor n && isExported n),
      (!isConstructor x && isExported x) = true :=
    fun x hx => (List.mem_filter.mp hx).2
  have hC : ∀ x ∈ ns.filter (fun n => !isConstructor n && !isExported n),
      (!isConstructor x && !isExported x) = true :=
    fun x hx => (List.mem_filter.mp hx).2
  conv_lhs => rw [orderNames]
  rw [show orderNames ns
      = ns.filter isConstructor
        ++ ns.filter (fun n => !isConstructor n && isExported n)
        ++ ns.filter (fun n => !isConstructor n && !isExported n) from rfl]
  rw [filter_blocks_first hA
      (fun x hx => by have := hB x hx; revert this; cases isConstructor x <;> simp)
      (fun x hx => by have := hC x hx; revert this; cases isConstructor x <;> simp)]
  rw [filter_blocks_mid
      (fun x hx => by have := hA x hx; simp [this])
      hB
      (fun x hx => by
        have := hC x hx
        revert this
        cases isConstructor x <;> cases isExported x <;> simp)]
  rw [filter_blocks_last
      (fun x hx => by have := hA x hx; simp [this])
      (fun x hx => by
        have := hB x hx
        revert this
        cases isConstructor x <;> cases isExported x <;> simp)
      hC]

/-- If a method list's name sequence is already in expected-order shape,
the expected order is the list itself. -/
theorem map_name_split {l : List MethodInfo} {ns ns' : List String}
    (h : l.map MethodInfo.name = ns ++ ns') :
    (l.take ns.length).map MethodInfo.name = ns
    ∧ (l.drop ns.length).map MethodInfo.name = ns' := by
  constructor
  · rw [List.map_take, h]
    exact List.take_left _ _
  · rw [List.map_drop, h]
    exact List.drop_left _ _

theorem expected_eq_self_of_map_name {ms : List MethodInfo}
    (h : ms.map MethodInfo.name = orderNames (ms.map MethodInfo.name)) :
    GetExpectedOrder ms = ms := by
  have h0 : ms.map MethodInfo.name
      = (ms.map MethodInfo.name).filter isConstructor
        ++ ((ms.map MethodInfo.name).filter (fun n => !isConstructor n && isExported n)
          ++ (ms.map MethodInfo.name).filter (fun n => !isConstructor n && !isExported n)) := by
    rw [← List.append_assoc]
    exact h
  have hPname := (map_name_split h0).1
  have hQRname := (map_name_split h0).2
  have hQname := (map_name_split hQRname).1
  have hRname := (map_name_split hQRname).2
  have hms : ms = ms.take ((ms.map MethodInfo.name).filter isConstructor).length
      ++ ((ms.drop ((ms.map MethodInfo.name).filter isConstructor).length).take
          ((ms.map MethodInfo.name).filter (fun n => !isConstructor n && isExported n)).length
        ++ (ms.drop ((ms.map MethodInfo.name).filter isConstructor).length).drop
          ((ms.map MethodInfo.name).filter (fun n => !isConstructor n && isExported n)).length) := by
    rw [List.take_append_drop, List.take_append_drop]
  have hP : ∀ x ∈ ms.take ((ms.map MethodInfo.name).filter isConstructor).length,
      isCtorM x = true := by
    intro x hx
    have hmem : x.name ∈ ((ms.take ((ms.map MethodInfo.name).filter isConstructor).length).map
        MethodInfo.name) := List.mem_map_of_mem _ hx
    rw [hPname] at hmem
    exact (List.mem_filter.mp hmem).2
  have hQ : ∀ x ∈ (ms.drop ((ms.map MethodInfo.name).filter isConstructor).length).take
      ((ms.map MethodInfo.name).filter (fun n => !isConstructor n && isExported n)).length,
      (!isConstructor x.name && isExported x.name) = true := by
    intro x hx
    have hmem : x.name ∈ _ := List.mem_map_of_mem MethodInfo.name hx
    rw [hQname] at hmem
    exact (List.mem_filter.mp hmem).2
  have hR : ∀ x ∈ (ms.drop ((ms.map MethodInfo.name).filter isConstructor).length).drop
      ((ms.map MethodInfo.name).filter (fun n => !isConstructor n && isExported n)).length,
      (!isConstructor x.name && !isExported x.name) = true := by
    intro x hx
    have hmem : x.name ∈ _ := List.mem_map_of_mem MethodInfo.name hx
    rw [hRname] at hmem
    exact (List.mem_filter.mp hmem).2
  have hA' : constructorsOf ms
      = ms.take ((ms.map MethodInfo.name).filter isConstructor).length := by
    unfold constructorsOf
    conv_lhs => rw [hms, ← List.append_assoc]
    exact filter_blocks_first hP
      (fun x hx => by have := hQ x hx; revert this; unfold isCtorM; cases isConstructor x.name <;> simp)
      (fun x hx => by have := hR x hx; revert this; unfold isCtorM; cases isConstructor x.name <;> simp)
  have hB' : exportedOf ms
      = (ms.drop ((ms.map MethodInfo.name).filter isConstructor).length).take
        ((ms.map MethodInfo.name).filter (fun n => !isConstructor n && isExported n)).length := by
    unfold exportedOf
    conv_lhs => rw [hms, ← List.append_assoc]
    exact filter_blocks_mid
      (fun x hx => by have := hP x hx; unfold isCtorM at this; simp [isCtorM, this])
      (fun x hx => hQ x hx)
      (fun x hx => by
        have := hR x hx
        revert this
        unfold isCtorM
        cases isConstructor x.name <;> cases isExported x.name <;> simp)
  have hC' : unexportedOf ms
      = (ms.drop ((ms.map MethodInfo.name).filter isConstructor).length).drop
        ((ms.map MethodInfo.name).filter (fun n => !isConstructor n && isExported n)).length := by
    unfold unexportedOf
    conv_lhs => rw [hms, ← List.append_assoc]
    exact filter_blocks_last
      (fun x hx => by have := hP x hx; unfold isCtorM at this; simp [isCtorM, this])
      (fun x hx => by
        have := hQ x hx
        revert this
        unfold isCtorM
        cases isConstructor x.name <;> cases isExported x.name <;> simp)
      (fun x hx => hR x hx)
  rw [GetExpectedOrder, hA', hB', hC', List.append_assoc]
  exact hms.symm

/-! ## Expected order versus detection -/

theorem expectedOrder_perm (ms : List MethodInfo) : (GetExpectedOrder ms).Perm ms := by
  have hB : exportedOf ms
      = (ms.filter (fun x => !isCtorM x)).filter (fun m => isExported m.name) := by
    rw [List.filter_filter]
    apply List.filter_congr
    intro a _
    cases isCtorM a <;> cases h : isExported a.name <;> simp [h]
  have hC : unexportedOf ms
      = (ms.filter (fun x => !isCtorM x)).filter (fun m => !isExported m.name) := by
    rw [List.filter_filter]
    apply List.filter_congr
    intro a _
    cases isCtorM a <;> cases h : isExported a.name <;> simp [h]
  have hBC : (exportedOf ms ++ unexportedOf ms).Perm (ms.filter (fun x => !isCtorM x)) := by
    rw [hB, hC]
    exact List.filter_append_perm _ _
  have h1 : (GetExpectedOrder ms).Perm
      (constructorsOf ms ++ ms.filter (fun x => !isCtorM x)) := by
    unfold GetExpectedOrder
    rw [List.append_assoc]
    exact List.Perm.append_left _ hBC
  exact h1.trans (List.filter_append_perm isCtorM ms)

theorem expectedOrder_length (ms : List MethodInfo) :
    (GetExpectedOrder ms).length = ms.length :=
  (expectedOrder_perm ms).length_eq

theorem zip_self_fst_eq_snd {α : Type _} : ∀ (l : List α), ∀ p ∈ l.zip l, p.1 = p.2 := by
  intro l
  induction l with
  | nil => intro p hp; cases hp
  | cons a l ih =>
    intro p hp
    rcases List.mem_cons.mp hp with h | h
    · rw [h]
    · exact ih p h

/-- A struct whose method sequence already matches the expected order never
needs reordering. -/
theorem needs_false_of_expected_eq {ms : List MethodInfo}
    (heq : GetExpectedOrder ms = ms) : NeedsReordering ms = false := by
  unfold NeedsReordering
  by_cases hlen : ms.length ≤ 1
  · rw [if_pos hlen]
  · rw [if_neg hlen]
    simp only [heq]
    rw [if_neg (by simp)]
    rw [List.any_eq_false]
    intro p hp
    have := zip_self_fst_eq_snd ms p hp
    simp [this]

theorem map_name_eq_of_zip {l l' : List MethodInfo} (hlen : l.length = l'.length)
    (h : ∀ p ∈ l.zip l', p.1.name = p.2.name) :
    l.map MethodInfo.name = l'.map MethodInfo.name := by
  induction l generalizing l' with
  | nil =>
    cases l' with
    | nil => rfl
    | cons b l' => simp at hlen
  | cons a l ih =>
    cases l' with
    | nil => simp at hlen
    | cons b l' =>
      simp only [List.map_cons]
      have hhead := h (a, b) (by simp [List.zip_cons_cons])
      rw [hhead]
      have htail := ih (by simpa using hlen) (fun p hp => h p (by simp [List.zip_cons_cons, hp]))
      rw [htail]

/-- A struct with at least two methods that does not need reordering has its
methods already in expected order. -/
theorem expected_eq_of_needs_false {ms : List MethodInfo}
    (h2 : 2 ≤ ms.length) (hn : NeedsReordering ms = false) :
    GetExpectedOrder ms = ms := by
  have hlen : ¬ ms.length ≤ 1 := by omega
  unfold NeedsReordering at hn
  rw [if_neg hlen] at hn
  simp only at hn
  rw [if_neg (by rw [expectedOrder_length]; simp)] at hn
  rw [List.any_eq_false] at hn
  have hzip : ∀ p ∈ ms.zip (GetExpectedOrder ms), p.1.name = p.2.name := by
    intro p hp
    have := hn p hp
    simpa using this
  have hname : ms.map MethodInfo.name = (GetExpectedOrder ms).map MethodInfo.name :=
    map_name_eq_of_zip (by rw [expectedOrder_length]) hzip
  apply expected_eq_self_of_map_name
  rw [hname, expectedOrder_map_name, orderNames_idem]

/-- With ascending positions and the methods already in expected order, both
checks are silent. -/
theorem checks_empty_of_expected_eq {ms : List MethodInfo}
    (hsor : ms.Pairwise (fun a b => a.pos ≤ b.pos))
    (heq : GetExpectedOrder ms = ms) (s : String) :
    checkConstructorOrdering s ms = [] ∧ checkExportedOrdering s ms = [] := by
  have hdec : ms = (constructorsOf ms ++ exportedOf ms) ++ unexportedOf ms := by
    conv_lhs => rw [← heq]
    rfl
  have hsor' : ((constructorsOf ms ++ exportedOf ms) ++ unexportedOf ms).Pairwise
      (fun a b => a.pos ≤ b.pos) := hdec ▸ hsor
  have hparts := List.pairwise_append.mp hsor'
  have hinner := List.pairwise_append.mp hparts.1
  have hAB : ∀ c ∈ constructorsOf ms, ∀ e ∈ exportedOf ms, c.pos ≤ e.pos :=
    hinner.2.2
  have hBC : ∀ e ∈ exportedOf ms, ∀ u ∈ unexportedOf ms, e.pos ≤ u.pos := by
    intro e he u hu
    exact hparts.2.2 e (List.mem_append.mpr (Or.inr he)) u hu
  constructor
  · unfold checkConstructorOrdering
    split
    · rfl
    · rw [List.filterMap_eq_nil_iff]
      intro c hc
      rw [Option.map_eq_none']
      rw [List.find?_eq_none]
      intro e he
      have := hAB c hc e he
      simp only [decide_eq_true_eq]
      omega
  · unfold checkExportedOrdering
    rw [List.filterMap_eq_nil_iff]
    intro u hu
    rw [Option.map_eq_none']
    rw [List.find?_eq_none]
    intro e he
    have := hBC e he u hu
    simp only [decide_eq_true_eq]
    omega

theorem methodsOf_pairwise_le (f : SymFile) (g : String) :
    (methodsOf f g).Pairwise (fun a b => a.pos ≤ b.pos) := by
  rw [methodsOf_eq_collectGo]
  exact collectGo_pairwise_le g 0 f.items

theorem checkStruct_eq_nil_of_not_needing {cfg : Config} {s : String}
    {ms : List MethodInfo} (hsor : ms.Pairwise (fun a b => a.pos ≤ b.pos))
    (hn : NeedsReordering ms = false) :
    checkStructMethods cfg s ms = [] := by
  by_cases hlen : ms.length ≤ 1
  · unfold checkStructMethods
    rw [if_pos hlen]
  · have h2 : 2 ≤ ms.length := by omega
    have heq := expected_eq_of_needs_false h2 hn
    have hch := checks_empty_of_expected_eq hsor heq s
    unfold checkStructMethods
    rw [if_neg hlen, hch.1, hch.2]
    split <;> split <;> rfl

/-- A file with at least one violation has at least one struct whose methods
need reordering — the filter in `fixFile` cannot come up empty. -/
theorem violations_imply_needing {cfg : Config} {f : SymFile}
    (hne : (Detect cfg f).length ≠ 0) : needingGroups f ≠ [] := by
  obtain ⟨v, hv⟩ : ∃ v, v ∈ Detect cfg f := by
    cases hD : Detect cfg f with
    | nil => rw [hD] at hne; simp at hne
    | cons a l =>
      exact ⟨a, List.mem_cons_self _ _⟩
  have hv' : v ∈ (groupNames f).flatMap
      (fun g => checkStructMethods cfg g (methodsOf f g)) :=
    (sortLe_perm vposLe _).mem_iff.mp hv
  rcases List.mem_flatMap.mp hv' with ⟨g, hg, hvg⟩
  have hneed : NeedsReordering (methodsOf f g) = true := by
    by_contra hcon
    have hfalse : NeedsReordering (methodsOf f g) = false := by
      cases h' : NeedsReordering (methodsOf f g)
      · rfl
      · exact absurd h' hcon
    rw [checkStruct_eq_nil_of_not_needing (methodsOf_pairwise_le f g) hfalse] at hvg
    cases hvg
  exact List.ne_nil_of_mem (List.mem_filter.mpr ⟨hg, hneed⟩)

/-- **C1.**  If detection yields no violations or fixing was not requested,
`ProcessFile` returns immediately: not fixed, original bytes, no fixed
content, no error.  And if fixing was requested and violations exist but
the filter left no struct needing reordering, the result is likewise the
original bytes with `fixed = false` — this situation is in fact
unreachable: a violation always forces its struct into the filtered set
(`violations_imply_needing`), so the claim holds vacuously. -/
theorem c1_processFile_short_circuit (cfg : Config) (f : SymFile) :
    ((Detect cfg f).length = 0 ∨ cfg.fix = false →
      (ProcessFile cfg f).fixed = false
      ∧ (ProcessFile cfg f).originalContent = render f
      ∧ (ProcessFile cfg f).fixedContent = none
      ∧ (ProcessFile cfg f).violations = (Detect cfg f).length
      ∧ (ProcessFile cfg f).error = none)
    ∧ (cfg.fix = true → (Detect cfg f).length ≠ 0 → needingGroups f = [] →
      (ProcessFile cfg f).fixed = false
      ∧ (ProcessFile cfg f).originalContent = render f
      ∧ (ProcessFile cfg f).fixedContent = none) := by
  constructor
  · intro h
    simp only [ProcessFile]
    rw [if_pos h]
    exact ⟨rfl, rfl, rfl, rfl, rfl⟩
  · intro _ hne hempty
    exact absurd hempty (violations_imply_needing hne)

/-- Witness for C1: a config with fixing off short-circuits on the example
file. -/
theorem c1_processFile_short_circuit_witness :
    ((Detect DefaultConfig exFile).length = 0 ∨ DefaultConfig.fix = false)
    ∧ ((ProcessFile DefaultConfig exFile).fixed = false
      ∧ (ProcessFile DefaultConfig exFile).originalContent = render exFile
      ∧ (ProcessFile DefaultConfig exFile).fixedContent = none
      ∧ (ProcessFile DefaultConfig exFile).violations
          = (Detect DefaultConfig exFile).length
      ∧ (ProcessFile DefaultConfig exFile).error = none) :=
  ⟨Or.inr rfl, (c1_processFile_short_circuit DefaultConfig exFile).1 (Or.inr rfl)⟩

/-! ## C9: structural invariant errors are all-or-nothing -/

theorem collectReps_ok_of_all_clean {f : SymFile} {src : Bytes}
    {structs : List String}
    (hall : structs.all (fun g => !NeedsReordering (methodsOf f g)) = true) :
    collectReps f src structs = .ok [] := by
  induction structs with
  | nil => rfl
  | cons g gs ih =>
    have hg : (!NeedsReordering (methodsOf f g)) = true := by
      have := List.all_eq_true.mp hall
      exact this g (List.mem_cons_self _ _)
    have hgs : gs.all (fun g => !NeedsReordering (methodsOf f g)) = true := by
      rw [List.all_eq_true]
      intro x hx
      exact List.all_eq_true.mp hall x (List.mem_cons_of_mem _ hx)
    unfold collectReps
    rw [if_pos hg]
    exact ih hgs

/-- **C9.**  A length mismatch between a struct's expected order and its
method blocks makes `buildSlotReplacements` fail with an internal error;
a collection error makes `ReorderStructMethods` fail without touching the
buffer; and whenever `ProcessFile` reports an error, the result is not
fixed, carries no fixed content, and returns the file's original bytes —
no partially spliced buffer can be returned, because every slot
replacement is built before the first splice is applied. -/
theorem c9_invariant_errors_all_or_nothing :
    (∀ region : StructRegion,
        (GetExpectedOrder region.methods).length ≠ region.blocks.length →
        buildSlotReplacements region = .error "method count mismatch")
    ∧ (∀ (f : SymFile) (src : Bytes) (structs : List String) (e : String),
        collectReps f src structs = .error e →
        ReorderStructMethods f src structs = .error e)
    ∧ (∀ (cfg : Config) (f : SymFile) (e : String),
        (ProcessFile cfg f).error = some e →
        (ProcessFile cfg f).fixed = false
        ∧ (ProcessFile cfg f).fixedContent = none
        ∧ (ProcessFile cfg f).originalContent = render f) := by
  refine ⟨?_, ?_, ?_⟩
  · intro region hneq
    unfold buildSlotReplacements
    rw [if_pos hneq]
  · intro f src structs e herr
    unfold ReorderStructMethods
    by_cases hall : structs.all (fun g => !NeedsReordering (methodsOf f g)) = true
    · rw [collectReps_ok_of_all_clean hall] at herr
      cases herr
    · rw [if_neg (by simpa using hall)]
      rw [herr]
  · intro cfg f e herr
    simp only [ProcessFile] at herr ⊢
    by_cases hc : (Detect cfg f).length = 0 ∨ cfg.fix = false
    · rw [if_pos hc] at herr
      cases herr
    · rw [if_neg hc] at herr ⊢
      cases hfe : fixFile f (render f) with
      | error e' => exact ⟨rfl, rfl, rfl⟩
      | ok out =>
        rw [hfe] at herr
        simp at herr

/-- A region with one method and no blocks, for the C9 witness. -/
def c9region : StructRegion := { name := "S", methods := [c8mi], blocks := [] }

/-- Witness for C9: the length-mismatch error at a concrete region. -/
theorem c9_invariant_errors_all_or_nothing_witness :
    (GetExpectedOrder c9region.methods).length ≠ c9region.blocks.length
    ∧ buildSlotReplacements c9region = .error "method count mismatch" :=
  ⟨by decide, c9_invariant_errors_all_or_nothing.1 c9region (by decide)⟩

/-! ## The literal method blocks of a pipeline run -/

theorem renderItems_cons (it : Item) (rest : List Item) :
    renderItems (it :: rest) = itemBytes it ++ renderItems rest := rfl

/-- Slicing the rendered file at a collected method's offsets recovers its
doc comment and body. -/
theorem collectGo_slice {g : String} {items : List Item} :
    ∀ {base : Nat} {mi : MethodInfo}, mi ∈ collectGo g base items →
    ∀ pre : Bytes, pre.length = base →
    mi.endPos ≤ (pre ++ renderItems items).length
    ∧ sliceBytes (pre ++ renderItems items) mi.docOff mi.endPos
        = mi.meth.doc ++ mi.meth.body := by
  induction items with
  | nil => intro base mi h; cases h
  | cons it rest ih =>
    intro base mi h pre hpre
    cases it with
    | gap t =>
      have h' : mi ∈ collectGo g (base + t.length) rest := h
      have := ih h' (pre ++ t) (by simp [hpre])
      rw [renderItems_cons]
      simpa [List.append_assoc] using this
    | method m =>
      simp only [collectGo, List.mem_append] at h
      rw [renderItems_cons]
      rcases h with h | h
      · have hmi : mi = MethodInfo.mk m base (base + m.doc.length)
            (base + m.doc.length + m.body.length) := by
          by_cases hr : m.recv = g
          · rw [if_pos hr] at h; simpa using h
          · rw [if_neg hr] at h; cases h
        subst hmi
        constructor
        · simp only [List.length_append, hpre, itemBytes]
          have : (m.doc ++ m.body).length = m.doc.length + m.body.length := by simp
          omega
        · simp only [sliceBytes, itemBytes]
          rw [← List.append_assoc]
          have hd : List.drop base ((pre ++ (m.doc ++ m.body)) ++ renderItems rest)
              = List.drop base (pre ++ (m.doc ++ m.body)) ++ renderItems rest := by
            apply List.drop_append_of_le_length
            simp [hpre]
          rw [hd]
          have hd2 : List.drop base (pre ++ (m.doc ++ m.body)) = m.doc ++ m.body := by
            have := List.drop_left pre (m.doc ++ m.body)
            rwa [hpre] at this
          rw [hd2]
          have hlen : base + m.doc.length + m.body.length - base
              = (m.doc ++ m.body).length := by simp; omega
          rw [hlen]
          rw [List.take_append_of_le_length (le_refl _)]
          exact List.take_length _
      · have := ih h (pre ++ itemBytes (Item.method m))
          (by simp [hpre, itemBytes]; omega)
        simpa [List.append_assoc] using this

/-- The method block the pipeline really builds for a collected method:
literal slice, trailing newlines trimmed. -/
def literalBlock (mi : MethodInfo) : MethodBlockM :=
  { meth := mi.meth, name := mi.meth.name, startOff := mi.docOff,
    endOff := mi.endPos,
    rawText := trimNlRight (mi.meth.doc ++ mi.meth.body) }

theorem getMethodBlock_literal {f : SymFile} {g : String} {mi : MethodInfo}
    (h : mi ∈ collectGo g 0 f.items) :
    GetMethodBlock mi (render f) = literalBlock mi := by
  have hf := collectGo_mem h
  have hslice := collectGo_slice h [] rfl
  simp only [List.nil_append] at hslice
  have hbs : blockStart mi = mi.docOff := by
    unfold blockStart
    by_cases hd : mi.meth.doc = []
    · rw [if_neg (by simp [hd])]
      rw [hf.2.2.1, hd]
      simp
    · rw [if_pos ⟨hd, by
        rw [hf.2.2.1]
        have : 1 ≤ mi.meth.doc.length := by
          cases hdoc : mi.meth.doc with
          | nil => exact absurd hdoc hd
          | cons c cs => simp
        omega⟩]
  have hmono : mi.docOff ≤ mi.endPos := by
    rw [hf.2.2.2.1, hf.2.2.1]
    omega
  unfold GetMethodBlock render
  rw [hbs, if_pos ⟨hslice.1, hmono⟩]
  unfold literalBlock
  rw [hslice.2]

theorem buildStructRegion_ok {f : SymFile} {g : String}
    (hne : methodsOf f g ≠ []) :
    buildStructRegion f (render f) g
      = .ok { name := g, methods := methodsOf f g,
              blocks := (methodsOf f g).map literalBlock } := by
  unfold buildStructRegion
  rw [if_neg (by simpa [List.length_eq_zero] using hne)]
  have : (methodsOf f g).map (fun mi => GetMethodBlock mi (render f))
      = (methodsOf f g).map literalBlock := by
    apply List.map_congr_left
    intro mi hmi
    rw [methodsOf_eq_collectGo] at hmi
    exact getMethodBlock_literal hmi
  rw [this]

/-! ## The name lookup -/

theorem byNameLookup_skip {n : String} {blocks : List MethodBlockM}
    (h : ∀ b ∈ blocks, b.name ≠ n) (acc : Option Bytes) :
    blocks.foldl (fun acc b => if b.name = n then some b.rawText else acc) acc = acc := by
  induction blocks generalizing acc with
  | nil => rfl
  | cons b bs ih =>
    simp only [List.foldl_cons]
    rw [if_neg (h b (List.mem_cons_self _ _))]
    exact ih (fun b' hb' => h b' (List.mem_cons_of_mem _ hb')) acc

theorem byNameLookup_found {blocks : List MethodBlockM} {b : MethodBlockM}
    (hnd : (blocks.map MethodBlockM.name).Nodup) (hb : b ∈ blocks) :
    byNameLookup blocks b.name = some b.rawText := by
  unfold byNameLookup
  induction blocks with
  | nil => cases hb
  | cons b' bs ih =>
    have hnd' : (bs.map MethodBlockM.name).Nodup := (List.nodup_cons.mp hnd).2
    rcases List.mem_cons.mp hb with rfl | hb'
    · simp only [List.foldl_cons, if_pos rfl]
      apply byNameLookup_skip
      intro b'' hb'' hname
      exact (List.nodup_cons.mp hnd).1 (hname ▸ List.mem_map_of_mem MethodBlockM.name hb'')
    · simp only [List.foldl_cons]
      have := ih hnd' hb'
      by_cases heq : b'.name = b.name
      · exfalso
        apply (List.nodup_cons.mp hnd).1
        rw [heq]
        exact List.mem_map_of_mem MethodBlockM.name hb'
      · rw [if_neg heq]
        exact this

/-! ## Per-struct slot replacements -/

/-- The slot replacements of one struct, explicitly: slot `i` keeps the i-th
method's byte range and receives the raw text of the method the expected
order puts at position `i`. -/
def slotsOf (f : SymFile) (g : String) : List Rep :=
  List.zipWith
    (fun mi e => Rep.mk mi.docOff mi.endPos (trimNlRight (e.meth.doc ++ e.meth.body)))
    (methodsOf f g) (GetExpectedOrder (methodsOf f g))

theorem map_zip_eq_zipWith {α β γ : Type _} (F : α × β → γ) :
    ∀ (l : List α) (l' : List β),
    (l.zip l').map F = List.zipWith (fun a b => F (a, b)) l l'
  | [], _ => rfl
  | _ :: _, [] => rfl
  | a :: l, b :: l' => by
    simp only [List.zip_cons_cons, List.map_cons, List.zipWith_cons_cons]
    rw [map_zip_eq_zipWith F l l']

theorem buildSlots_ok {blocks : List MethodBlockM} {g : List (MethodBlockM × MethodInfo)}
    (tf : MethodInfo → Bytes)
    (h : ∀ p ∈ g, byNameLookup blocks p.2.name = some (tf p.2)) :
    buildSlots blocks g = .ok (g.map (fun p => Rep.mk p.1.startOff p.1.endOff (tf p.2))) := by
  induction g with
  | nil => rfl
  | cons p g ih =>
    obtain ⟨b, e⟩ := p
    simp only [buildSlots]
    rw [h (b, e) (List.mem_cons_self _ _)]
    rw [ih (fun q hq => h q (List.mem_cons_of_mem _ hq))]
    rfl

theorem buildSlotReplacements_ok {f : SymFile} {g : String}
    (hnd : ((methodsOf f g).map MethodInfo.name).Nodup) :
    buildSlotReplacements
      { name := g, methods := methodsOf f g,
        blocks := (methodsOf f g).map literalBlock }
      = .ok (slotsOf f g) := by
  unfold buildSlotReplacements
  dsimp only
  rw [if_neg (by
    simp only [List.length_map]
    rw [expectedOrder_length]
    simp)]
  have hlook : ∀ p ∈ ((methodsOf f g).map literalBlock).zip
      (GetExpectedOrder (methodsOf f g)),
      byNameLookup ((methodsOf f g).map literalBlock) p.2.name
        = some (trimNlRight (p.2.meth.doc ++ p.2.meth.body)) := by
    intro p hp
    have hsnd : p.2 ∈ GetExpectedOrder (methodsOf f g) := (List.mem_zip hp).2
    have hsnd' : p.2 ∈ methodsOf f g := (expectedOrder_perm _).mem_iff.mp hsnd
    have hbmem : literalBlock p.2 ∈ (methodsOf f g).map literalBlock :=
      List.mem_map_of_mem literalBlock hsnd'
    have hndb : (((methodsOf f g).map literalBlock).map MethodBlockM.name).Nodup := by
      rw [List.map_map]
      exact hnd
    have := byNameLookup_found hndb hbmem
    exact this
  rw [buildSlots_ok (fun e => trimNlRight (e.meth.doc ++ e.meth.body)) hlook]
  congr 1
  unfold slotsOf
  rw [List.zip_map_left, List.map_map, map_zip_eq_zipWith]
  rfl

/-! ## Collecting all slot replacements -/

theorem needs_nonempty {ms : List MethodInfo} (h : NeedsReordering ms = true) :
    ms ≠ [] := by
  intro hnil
  rw [hnil] at h
  simp [NeedsReordering] at h

/-- All slot replacements of a file, struct by struct. -/
def allSlots (f : SymFile) : List Rep := (needingGroups f).flatMap (slotsOf f)

theorem collectReps_ok {f : SymFile} (hwf : wfNames f) :
    ∀ gs : List String,
    (∀ g ∈ gs, g ∈ groupNames f ∧ NeedsReordering (methodsOf f g) = true) →
    collectReps f (render f) gs = .ok (gs.flatMap (slotsOf f)) := by
  intro gs hgs
  induction gs with
  | nil => rfl
  | cons g gs ih =>
    have hg := hgs g (List.mem_cons_self _ _)
    have hne : methodsOf f g ≠ [] := needs_nonempty hg.2
    unfold collectReps
    rw [hg.2]
    rw [if_neg (by simp)]
    rw [buildStructRegion_ok hne]
    dsimp only
    rw [buildSlotReplacements_ok (hwf g hg.1)]
    dsimp only
    rw [ih (fun x hx => hgs x (List.mem_cons_of_mem _ hx))]
    rfl

/-! ## The canonical (file-order) replacement list -/

theorem update_single {g : String} {l tl : List Method} :
    Function.update (fun x => if x = g then some l else none) g (some tl)
      = fun x => if x = g then some tl else none := by
  funext x
  rw [Function.update_apply]
  by_cases hx : x = g <;> simp [hx]

/-- For a single struct, the canonical walk produces exactly the per-slot
replacements. -/
theorem canonItems_single (g : String) (items : List Item) :
    ∀ (base : Nat) (l : List Method),
    canonItems (fun x => if x = g then some l else none) base items
      = List.zipWith
          (fun mi h => Rep.mk mi.docOff mi.endPos (trimNlRight (h.doc ++ h.body)))
          (collectGo g base items) l := by
  induction items with
  | nil => intro base l; rfl
  | cons it rest ih =>
    intro base l
    cases it with
    | gap t =>
      simp only [canonItems, collectGo]
      exact ih _ _
    | method m =>
      by_cases hr : m.recv = g
      · subst hr
        cases l with
        | nil =>
          simp only [canonItems, collectGo, eq_self_iff_true, if_true]
          rw [ih (base + (m.doc.length + m.body.length)) []]
          simp
        | cons h tl =>
          simp only [canonItems, collectGo, eq_self_iff_true, if_true]
          rw [update_single]
          rw [ih (base + (m.doc.length + m.body.length)) tl]
          simp only [List.singleton_append, List.zipWith_cons_cons]
          have harith : base + m.doc.length + m.body.length
              = base + (m.doc.length + m.body.length) := by omega
          rw [harith]
      · have hσ : (fun x => if x = g then some l else none) m.recv = none := by
          simp [hr]
        simp only [canonItems, collectGo, hσ]
        rw [if_neg hr]
        simp only [List.nil_append]
        have harith : base + m.doc.length + m.body.length
            = base + (m.doc.length + m.body.length) := by omega
        rw [harith]
        exact ih _ _

theorem canonItems_none (items : List Item) :
    ∀ base, canonItems (fun _ => none) base items = [] := by
  induction items with
  | nil => intro base; rfl
  | cons it rest ih =>
    intro base
    cases it with
    | gap t => simp only [canonItems]; exact ih _
    | method m => simp only [canonItems]; exact ih _

/-- Splitting the canonical walk into one struct's stream and the rest. -/
theorem canonItems_split (g : String) (items : List Item) :
    ∀ (base : Nat) (σ : String → Option (List Method)) (o : Option (List Method)),
    σ g = o →
    (canonItems σ base items).Perm
      (canonItems (fun x => if x = g then o else none) base items
        ++ canonItems (Function.update σ g none) base items) := by
  induction items with
  | nil => intro base σ o ho; exact List.Perm.refl _
  | cons it rest ih =>
    intro base σ o ho
    cases it with
    | gap t =>
      simp only [canonItems]
      exact ih _ _ _ ho
    | method m =>
      by_cases hrg : m.recv = g
      · subst hrg
        have h2 : (Function.update σ m.recv none) m.recv = none := by
          simp [Function.update_apply]
        cases o with
        | none =>
          simp only [canonItems, ho, h2, eq_self_iff_true, if_true]
          exact ih _ _ _ (by simp [Function.update_apply, ho])
        | some l =>
          cases l with
          | nil =>
            simp only [canonItems, ho, h2, eq_self_iff_true, if_true]
            exact ih _ _ _ (by simp [Function.update_apply, ho])
          | cons h tl =>
            simp only [canonItems, ho, h2, eq_self_iff_true, if_true]
            rw [update_single]
            have e2 : Function.update σ m.recv none
                = Function.update (Function.update σ m.recv (some tl)) m.recv none := by
              funext x
              rw [Function.update_apply, Function.update_apply, Function.update_apply]
              by_cases hx : x = m.recv <;> simp [hx]
            rw [e2]
            refine List.Perm.cons _ ?_
            exact ih _ _ _ (by simp [Function.update_apply])
      · have h1 : (if m.recv = g then o else none) = none := if_neg hrg
        have h2 : (Function.update σ g none) m.recv = σ m.recv := by
          rw [Function.update_apply, if_neg hrg]
        cases hσ : σ m.recv with
        | none =>
          simp only [canonItems, hσ, h1, h2]
          exact ih _ _ _ ho
        | some l =>
          cases l with
          | nil =>
            simp only [canonItems, hσ, h1, h2]
            exact ih _ _ _ ho
          | cons h tl =>
            simp only [canonItems, hσ, h1, h2]
            have e2 : Function.update (Function.update σ g none) m.recv (some tl)
                = Function.update (Function.update σ m.recv (some tl)) g none := by
              funext x
              rw [Function.update_apply, Function.update_apply,
                Function.update_apply, Function.update_apply]
              by_cases hx : x = m.recv
              · subst hx
                rw [if_neg hrg]
                simp [hrg]
              · by_cases hg : x = g <;> simp [hx, hg, Ne.symm hrg]
            rw [e2]
            have hnext : (Function.update σ m.recv (some tl)) g = o := by
              rw [Function.update_apply, if_neg (Ne.symm hrg)]
              exact ho
            have := ih (base + (m.doc.length + m.body.length))
              (Function.update σ m.recv (some tl)) o hnext
            refine (this.cons _).trans ?_
            exact (List.perm_middle).symm

/-- The per-struct expected assignment restricted to a list of structs. -/
def expFor (f : SymFile) (gs : List String) : String → Option (List Method) :=
  fun g =>
    if g ∈ gs then some ((GetExpectedOrder (methodsOf f g)).map MethodInfo.meth)
    else none

theorem expAssign_eq (f : SymFile) : expAssign f = expFor f (needingGroups f) := rfl

theorem canonItems_expFor_perm (f : SymFile) (items : List Item) :
    ∀ gs : List String, gs.Nodup →
    (canonItems (expFor f gs) 0 items).Perm
      (gs.flatMap (fun g =>
        canonItems (fun x =>
          if x = g then some ((GetExpectedOrder (methodsOf f g)).map MethodInfo.meth)
          else none) 0 items)) := by
  intro gs
  induction gs with
  | nil =>
    intro _
    have : expFor f [] = fun _ => none := by
      funext x
      simp [expFor]
    rw [this, canonItems_none]
    exact List.Perm.refl _
  | cons g gs ih =>
    intro hnd
    have hg : g ∉ gs := (List.nodup_cons.mp hnd).1
    have hsplit := canonItems_split g items 0 (expFor f (g :: gs))
      (some ((GetExpectedOrder (methodsOf f g)).map MethodInfo.meth))
      (by simp [expFor])
    have hupd : Function.update (expFor f (g :: gs)) g none = expFor f gs := by
      funext x
      rw [Function.update_apply]
      by_cases hx : x = g
      · subst hx
        rw [if_pos rfl]
        simp [expFor, hg]
      · rw [if_neg hx]
        simp only [expFor, List.mem_cons]
        by_cases hmem : x ∈ gs <;> simp [hmem, hx]
    rw [hupd] at hsplit
    refine hsplit.trans ?_
    rw [List.flatMap_cons]
    exact List.Perm.append_left _ (ih (List.nodup_cons.mp hnd).2)

theorem canonItems_single_slots (f : SymFile) (g : String) :
    canonItems (fun x =>
        if x = g then some ((GetExpectedOrder (methodsOf f g)).map MethodInfo.meth)
        else none) 0 f.items
      = slotsOf f g := by
  rw [canonItems_single]
  unfold slotsOf
  rw [← methodsOf_eq_collectGo]
  rw [List.zipWith_map_right]

/-- The canonical file-order walk produces exactly the pipeline's collected
slot replacements, up to order. -/
theorem canon_perm_allSlots (f : SymFile) :
    (canonItems (expAssign f) 0 f.items).Perm (allSlots f) := by
  rw [expAssign_eq]
  have h1 := canonItems_expFor_perm f f.items (needingGroups f)
    ((List.nodup_dedup f.decls).filter _)
  refine h1.trans ?_
  unfold allSlots
  have : (fun g =>
      canonItems (fun x =>
        if x = g then some ((GetExpectedOrder (methodsOf f g)).map MethodInfo.meth)
        else none) 0 f.items) = slotsOf f := by
    funext g
    exact canonItems_single_slots f g
  rw [this]

/-! ## Strict descending order of the applied replacements -/

theorem canonItems_lb {items : List Item} :
    ∀ {σ : String → Option (List Method)} {base : Nat} {rep : Rep},
    rep ∈ canonItems σ base items → base ≤ rep.start := by
  induction items with
  | nil => intro σ base rep h; cases h
  | cons it rest ih =>
    intro σ base rep h
    cases it with
    | gap t =>
      have := ih (σ := σ) h
      omega
    | method m =>
      simp only [canonItems] at h
      cases hσ : σ m.recv with
      | none =>
        rw [hσ] at h
        have := ih h
        omega
      | some l =>
        cases l with
        | nil =>
          rw [hσ] at h
          have := ih h
          omega
        | cons hd tl =>
          rw [hσ] at h
          rcases List.mem_cons.mp h with rfl | h
          · exact le_refl _
          · have := ih h
            omega

theorem canonItems_pairwise_lt {items : List Item} (hwf : wfItems items) :
    ∀ (σ : String → Option (List Method)) (base : Nat),
    (canonItems σ base items).Pairwise (fun a b => a.start < b.start) := by
  induction items with
  | nil => intro σ base; exact List.Pairwise.nil
  | cons it rest ih =>
    have hwrest : wfItems rest := fun x hx => hwf x (List.mem_cons_of_mem _ hx)
    intro σ base
    cases it with
    | gap t =>
      simp only [canonItems]
      exact ih hwrest _ _
    | method m =>
      have hgood : goodMethod m := hwf (Item.method m) (List.mem_cons_self _ _)
      have hbody : 1 ≤ m.body.length := by
        cases hb : m.body with
        | nil => exact absurd hb hgood.1
        | cons c cs => simp
      simp only [canonItems]
      cases hσ : σ m.recv with
      | none => exact ih hwrest _ _
      | some l =>
        cases l with
        | nil => exact ih hwrest _ _
        | cons hd tl =>
          refine List.Pairwise.cons ?_ (ih hwrest _ _)
          intro rep hrep
          have := canonItems_lb hrep
          simp only
          omega

theorem pairwise_reverse_lt {l : List Rep}
    (h : l.Pairwise (fun a b => a.start < b.start)) :
    l.reverse.Pairwise (fun a b => b.start < a.start) := by
  rw [List.pairwise_reverse]
  exact h

/-- Once sorted descending, the collected replacements are exactly the
canonical file-order list reversed. -/
theorem sortDesc_eq_canon_reverse {f : SymFile} (hwfI : wfItems f.items)
    {R : List Rep} (hperm : R.Perm (canonItems (expAssign f) 0 f.items)) :
    sortDesc R = (canonItems (expAssign f) 0 f.items).reverse := by
  have hcanon_lt := canonItems_pairwise_lt hwfI (expAssign f) 0
  have hrev := pairwise_reverse_lt hcanon_lt
  have hperm2 : (sortDesc R).Perm (canonItems (expAssign f) 0 f.items).reverse := by
    refine ((sortLe_perm repGe R).trans hperm).trans ?_
    exact (List.reverse_perm _).symm
  have htot : ∀ a b : Rep, repGe a b = false → repGe b a = true := by
    intro a b h
    simp only [repGe, decide_eq_false_iff_not] at h
    simp only [repGe, decide_eq_true_eq]
    omega
  have htrans : ∀ a b c : Rep,
      repGe a b = true → repGe b c = true → repGe a c = true := by
    intro a b c h1 h2
    simp only [repGe, decide_eq_true_eq] at h1 h2 ⊢
    omega
  have hsort_ge : (sortDesc R).Pairwise (fun a b => b.start ≤ a.start) :=
    (sortLe_pairwise htot htrans R).imp (fun h => by
      simpa [repGe] using h)
  have hnodup : ((sortDesc R).map Rep.start).Nodup := by
    have h1 : ((canonItems (expAssign f) 0 f.items).reverse.map Rep.start).Nodup := by
      apply List.pairwise_map.mpr
      exact hrev.imp (fun h => by omega)
    exact (hperm2.map Rep.start).nodup_iff.mpr h1
  have hne : (sortDesc R).Pairwise (fun a b => a.start ≠ b.start) :=
    List.pairwise_map.mp hnodup
  have hsort_gt : (sortDesc R).Pairwise (fun a b => b.start < a.start) := by
    have := hsort_ge.and hne
    exact this.imp (fun h => by omega)
  haveI : IsAntisymm Rep (fun a b => b.start < a.start) :=
    ⟨fun a b h1 h2 => absurd h1 (by omega)⟩
  exact List.eq_of_perm_of_sorted hperm2 hsort_gt hrev

/-! ## Applying the replacements back-to-front -/

theorem take_append_exact {α : Type _} {l₁ l₂ : List α} {n : Nat}
    (h : l₁.length = n) : (l₁ ++ l₂).take n = l₁ := by
  subst h
  exact List.take_left _ _

theorem drop_append_exact {α : Type _} {l₁ l₂ : List α} {n : Nat}
    (h : l₁.length = n) : (l₁ ++ l₂).drop n = l₂ := by
  subst h
  exact List.drop_left _ _

theorem trimNlRight_noop {s : Bytes} (hne : s ≠ [])
    (hlast : s.getLast? ≠ some '\n') : trimNlRight s = s := by
  cases hr : s.reverse with
  | nil =>
    exact absurd (by simpa using congrArg List.reverse hr) hne
  | cons c cs =>
    have hc : s.getLast? = some c := by
      rw [List.getLast?_eq_head?_reverse, hr]
      rfl
    have hcne : ¬ c = '\n' := by
      intro h
      exact hlast (h ▸ hc)
    unfold trimNlRight
    rw [hr, List.dropWhile_cons, if_neg (by simpa using hcne)]
    rw [← hr, List.reverse_reverse]

theorem trimNlRight_method {m : Method} (h : goodMethod m) :
    trimNlRight (m.doc ++ m.body) = m.doc ++ m.body := by
  apply trimNlRight_noop
  · simp [h.1]
  · rw [List.getLast?_append_of_ne_nil _ h.1]
    exact h.2

/-- The good-state invariant: every still-unplaced method is well formed. -/
def stateGood (σ : String → Option (List Method)) : Prop :=
  ∀ g l, σ g = some l → ∀ m ∈ l, goodMethod m

theorem stateGood_update {σ : String → Option (List Method)} (h : stateGood σ)
    {g : String} {tl : List Method} (htl : ∀ m ∈ tl, goodMethod m) :
    stateGood (Function.update σ g (some tl)) := by
  intro g' l' hl'
  rw [Function.update_apply] at hl'
  by_cases hg : g' = g
  · rw [if_pos hg] at hl'
    cases hl'
    exact htl
  · rw [if_neg hg] at hl'
    exact h g' l' hl'

/-- Applying the canonical replacements back-to-front (that is, `foldr` over
the file-order list) performs exactly the symbolic slot permutation. -/
theorem canon_foldr :
    ∀ (items : List Item) (σ : String → Option (List Method)),
    stateGood σ →
    ∀ (base : Nat) (pre : Bytes), pre.length = base →
    (canonItems σ base items).foldr
        (fun rep acc => spliceBytes acc rep.start rep.stop rep.text)
        (pre ++ renderItems items)
      = pre ++ renderItems (applyItems σ items) := by
  intro items
  induction items with
  | nil => intro σ hσ base pre hpre; rfl
  | cons it rest ih =>
    intro σ hσ base pre hpre
    cases it with
    | gap t =>
      simp only [canonItems, applyItems, renderItems_cons, itemBytes]
      rw [← List.append_assoc, ← List.append_assoc]
      exact ih σ hσ (base + t.length) (pre ++ t) (by simp [hpre])
    | method m =>
      have hsrc : pre ++ ((m.doc ++ m.body) ++ renderItems rest)
          = (pre ++ (m.doc ++ m.body)) ++ renderItems rest := by
        simp [List.append_assoc]
      cases hσm : σ m.recv with
      | none =>
        have hdst : pre ++ ((m.doc ++ m.body) ++ renderItems (applyItems σ rest))
            = (pre ++ (m.doc ++ m.body)) ++ renderItems (applyItems σ rest) := by
          simp [List.append_assoc]
        simp only [canonItems, applyItems, hσm, renderItems_cons, itemBytes]
        rw [hsrc, hdst]
        exact ih σ hσ (base + (m.doc.length + m.body.length))
          (pre ++ (m.doc ++ m.body))
          (by simp only [List.length_append]; omega)
      | some l =>
        cases l with
        | nil =>
          have hdst : pre ++ ((m.doc ++ m.body) ++ renderItems (applyItems σ rest))
              = (pre ++ (m.doc ++ m.body)) ++ renderItems (applyItems σ rest) := by
            simp [List.append_assoc]
          simp only [canonItems, applyItems, hσm, renderItems_cons, itemBytes]
          rw [hsrc, hdst]
          exact ih σ hσ (base + (m.doc.length + m.body.length))
            (pre ++ (m.doc ++ m.body))
            (by simp only [List.length_append]; omega)
        | cons h tl =>
          have hgood : ∀ x ∈ h :: tl, goodMethod x := hσ m.recv _ hσm
          have hσ' : stateGood (Function.update σ m.recv (some tl)) :=
            stateGood_update hσ (fun x hx => hgood x (List.mem_cons_of_mem _ hx))
          simp only [canonItems, applyItems, hσm, renderItems_cons, itemBytes,
            List.foldr_cons]
          rw [hsrc]
          have hinner := ih (Function.update σ m.recv (some tl)) hσ'
            (base + (m.doc.length + m.body.length)) (pre ++ (m.doc ++ m.body))
            (by simp only [List.length_append]; omega)
          rw [hinner]
          unfold spliceBytes
          have htake : ((pre ++ (m.doc ++ m.body))
              ++ renderItems (applyItems (Function.update σ m.recv (some tl)) rest)).take
              base = pre := by
            rw [List.append_assoc]
            exact take_append_exact hpre
          have hdrop : ((pre ++ (m.doc ++ m.body))
              ++ renderItems (applyItems (Function.update σ m.recv (some tl)) rest)).drop
              (base + (m.doc.length + m.body.length))
              = renderItems (applyItems (Function.update σ m.recv (some tl)) rest) := by
            apply drop_append_exact
            simp only [List.length_append]
            omega
          rw [htake, hdrop, trimNlRight_method (hgood h (List.mem_cons_self _ _))]
          rw [List.append_assoc]

/-! ## The reorder engine realizes the symbolic fix -/

theorem mem_expAssign_good {f : SymFile} (hwfI : wfItems f.items) {g : String}
    {l : List Method} (hl : expAssign f g = some l) : ∀ m ∈ l, goodMethod m := by
  intro m hm
  unfold expAssign at hl
  by_cases hg : g ∈ needingGroups f
  · rw [if_pos hg] at hl
    cases hl
    rcases List.mem_map.mp hm with ⟨mi, hmi, hmim⟩
    have hmi' : mi ∈ methodsOf f g := (expectedOrder_perm _).mem_iff.mp hmi
    rw [methodsOf_eq_collectGo] at hmi'
    have := (collectGo_mem hmi').2.2.2.2
    rw [hmim] at this
    exact wfItems_method hwfI this
  · rw [if_neg hg] at hl
    cases hl

theorem expAssign_stateGood {f : SymFile} (hwfI : wfItems f.items) :
    stateGood (expAssign f) :=
  fun _ _ hl => mem_expAssign_good hwfI hl

theorem needingGroups_spec {f : SymFile} {g : String} (hg : g ∈ needingGroups f) :
    g ∈ groupNames f ∧ NeedsReordering (methodsOf f g) = true :=
  List.mem_filter.mp hg

/-- The byte-splice engine computes exactly the rendering of the symbolic
slot permutation. -/
theorem reorder_applies {f : SymFile} (hwf : wf f)
    (hne : needingGroups f ≠ []) :
    ReorderStructMethods f (render f) (needingGroups f)
      = .ok (render (applyFix f)) := by
  have hgs : ∀ g ∈ needingGroups f,
      g ∈ groupNames f ∧ NeedsReordering (methodsOf f g) = true :=
    fun g hg => needingGroups_spec hg
  obtain ⟨g₀, hg₀⟩ : ∃ g, g ∈ needingGroups f := by
    cases h : needingGroups f with
    | nil => exact absurd h hne
    | cons a l => exact ⟨a, List.mem_cons_self _ _⟩
  have hall : ¬ ((needingGroups f).all
      (fun g => !NeedsReordering (methodsOf f g)) = true) := by
    intro hall
    have := List.all_eq_true.mp hall g₀ hg₀
    rw [(needingGroups_spec hg₀).2] at this
    simp at this
  unfold ReorderStructMethods
  rw [if_neg hall]
  rw [collectReps_ok hwf.2 _ hgs]
  dsimp only
  congr 1
  rw [show (needingGroups f).flatMap (slotsOf f) = allSlots f from rfl]
  rw [sortDesc_eq_canon_reverse hwf.1 (canon_perm_allSlots f).symm]
  rw [List.foldl_reverse]
  have := canon_foldr f.items (expAssign f) (expAssign_stateGood hwf.1) 0 [] rfl
  simpa using this

theorem fixFile_applies {f : SymFile} (hwf : wf f)
    (hne : needingGroups f ≠ []) :
    fixFile f (render f) = .ok (render (applyFix f)) := by
  unfold fixFile
  rw [if_neg (by simpa [List.length_eq_zero] using hne)]
  exact reorder_applies hwf hne

/-- When fixing is on and violations exist, `ProcessFile` fixes the file
and the fixed bytes are the rendering of the symbolic slot permutation. -/
theorem processFile_fixes {cfg : Config} {f : SymFile} (hwf : wf f)
    (hfix : cfg.fix = true) (hv : (Detect cfg f).length ≠ 0) :
    (ProcessFile cfg f).fixed = true
    ∧ (ProcessFile cfg f).fixedContent = some (render (applyFix f))
    ∧ (ProcessFile cfg f).error = none
    ∧ (ProcessFile cfg f).violations = (Detect cfg f).length
    ∧ (ProcessFile cfg f).originalContent = render f := by
  have hne := violations_imply_needing hv
  simp only [ProcessFile]
  rw [if_neg (by simp [hv, hfix])]
  rw [fixFile_applies hwf hne]
  exact ⟨rfl, rfl, rfl, rfl, rfl⟩

/-! ## C5: one slot replacement per slot, applied in descending order -/

theorem zipWith_congr_mem {α β γ : Type _} (f f' : α → β → γ) :
    ∀ (l : List α) (l' : List β),
    (∀ a ∈ l, ∀ b ∈ l', f a b = f' a b) →
    List.zipWith f l l' = List.zipWith f' l l' := by
  intro l
  induction l with
  | nil => intro l' _; rfl
  | cons a l ih =>
    intro l' h
    cases l' with
    | nil => rfl
    | cons b l' =>
      simp only [List.zipWith_cons_cons]
      rw [h a (List.mem_cons_self _ _) b (List.mem_cons_self _ _)]
      rw [ih l' (fun a' ha' b' hb' =>
        h a' (List.mem_cons_of_mem _ ha') b' (List.mem_cons_of_mem _ hb'))]

theorem slotsOf_untrimmed {f : SymFile} (hwfI : wfItems f.items) (g : String) :
    slotsOf f g
      = List.zipWith
          (fun mi e => Rep.mk mi.docOff mi.endPos (e.meth.doc ++ e.meth.body))
          (methodsOf f g) (GetExpectedOrder (methodsOf f g)) := by
  unfold slotsOf
  apply zipWith_congr_mem
  intro mi _ e he
  have he' : e ∈ methodsOf f g := (expectedOrder_perm _).mem_iff.mp he
  rw [methodsOf_eq_collectGo] at he'
  have hm := (collectGo_mem he').2.2.2.2
  have hgood : goodMethod e.meth := wfItems_method hwfI hm
  rw [trimNlRight_method hgood]

/-- **C5.**  For every struct being reordered, the engine emits exactly one
slot replacement per slot: slot `i` covers the i-th method's original byte
range (doc-extended start to the method's end) and carries the original,
unmodified source text of the method the expected order places at position
`i`.  The replacements collected over all structs are the concatenation of
the per-struct lists, and the list the engine actually applies to the
buffer is strictly descending in start offset. -/
theorem c5_slot_replacements (f : SymFile) (hwf : wf f) :
    (∀ g ∈ needingGroups f,
      buildStructRegion f (render f) g
          = .ok (StructRegion.mk g (methodsOf f g) ((methodsOf f g).map literalBlock))
      ∧ buildSlotReplacements
            (StructRegion.mk g (methodsOf f g) ((methodsOf f g).map literalBlock))
          = .ok (slotsOf f g)
      ∧ slotsOf f g
          = List.zipWith
              (fun mi e => Rep.mk mi.docOff mi.endPos (e.meth.doc ++ e.meth.body))
              (methodsOf f g) (GetExpectedOrder (methodsOf f g)))
    ∧ collectReps f (render f) (needingGroups f) = .ok (allSlots f)
    ∧ (sortDesc (allSlots f)).Pairwise (fun a b => b.start < a.start) := by
  refine ⟨?_, ?_, ?_⟩
  · intro g hg
    have hspec := needingGroups_spec hg
    refine ⟨buildStructRegion_ok (needs_nonempty hspec.2),
      buildSlotReplacements_ok (hwf.2 g hspec.1), slotsOf_untrimmed hwf.1 g⟩
  · exact collectReps_ok hwf.2 _ (fun g hg => needingGroups_spec hg)
  · rw [sortDesc_eq_canon_reverse hwf.1 (canon_perm_allSlots f).symm]
    exact pairwise_reverse_lt (canonItems_pairwise_lt hwf.1 _ 0)

/-- Witness for C5 at the concrete example file. -/
theorem c5_slot_replacements_witness :
    wf exFile
    ∧ ((∀ g ∈ needingGroups exFile,
        buildStructRegion exFile (render exFile) g
            = .ok (StructRegion.mk g (methodsOf exFile g)
                ((methodsOf exFile g).map literalBlock))
        ∧ buildSlotReplacements
              (StructRegion.mk g (methodsOf exFile g)
                ((methodsOf exFile g).map literalBlock))
            = .ok (slotsOf exFile g)
        ∧ slotsOf exFile g
            = List.zipWith
                (fun mi e => Rep.mk mi.docOff mi.endPos (e.meth.doc ++ e.meth.body))
                (methodsOf exFile g) (GetExpectedOrder (methodsOf exFile g)))
      ∧ collectReps exFile (render exFile) (needingGroups exFile)
          = .ok (allSlots exFile)
      ∧ (sortDesc (allSlots exFile)).Pairwise (fun a b => b.start < a.start)) :=
  ⟨by decide, c5_slot_replacements exFile (by decide)⟩

/-! ## The method sequence of a struct, before and after fixing -/

/-- The methods of struct `g`, in file order (positions forgotten). -/
def methSeq (g : String) : List Item → List Method
  | [] => []
  | .gap _ :: rest => methSeq g rest
  | .method m :: rest => (if m.recv = g then [m] else []) ++ methSeq g rest

theorem collectGo_map_meth (g : String) :
    ∀ (base : Nat) (items : List Item),
    (collectGo g base items).map MethodInfo.meth = methSeq g items := by
  intro base items
  induction items generalizing base with
  | nil => rfl
  | cons it rest ih =>
    cases it with
    | gap t => exact ih _
    | method m =>
      simp only [collectGo, methSeq, List.map_append]
      rw [ih]
      by_cases hr : m.recv = g
      · rw [if_pos hr, if_pos hr]
        rfl
      · rw [if_neg hr, if_neg hr]
        rfl

theorem methSeq_applyItems_none (g : String) :
    ∀ (items : List Item) (σ : String → Option (List Method)),
    (∀ g' l, σ g' = some l → ∀ m ∈ l, m.recv = g') →
    σ g = none →
    methSeq g (applyItems σ items) = methSeq g items := by
  intro items
  induction items with
  | nil => intro σ _ _; rfl
  | cons it rest ih =>
    intro σ hrecv hg
    cases it with
    | gap t =>
      simp only [applyItems, methSeq]
      exact ih σ hrecv hg
    | method m =>
      cases hσm : σ m.recv with
      | none =>
        simp only [applyItems, hσm, methSeq]
        rw [ih σ hrecv hg]
      | some l =>
        cases l with
        | nil =>
          simp only [applyItems, hσm, methSeq]
          rw [ih σ hrecv hg]
        | cons h tl =>
          have hmg : m.recv ≠ g := by
            intro he
            rw [he, hg] at hσm
            cases hσm
          have hh : h.recv = m.recv := hrecv m.recv _ hσm h (List.mem_cons_self _ _)
          have hrecv' : ∀ g' l, (Function.update σ m.recv (some tl)) g' = some l →
              ∀ x ∈ l, x.recv = g' := by
            intro g' l hl x hx
            rw [Function.update_apply] at hl
            by_cases hgg : g' = m.recv
            · rw [if_pos hgg] at hl
              cases hl
              rw [hgg]
              exact hrecv m.recv _ hσm x (List.mem_cons_of_mem _ hx)
            · rw [if_neg hgg] at hl
              exact hrecv g' l hl x hx
          have hg' : (Function.update σ m.recv (some tl)) g = none := by
            rw [Function.update_apply, if_neg (by exact fun he => hmg he.symm)]
            exact hg
          simp only [applyItems, hσm, methSeq]
          rw [if_neg (hh ▸ hmg), if_neg hmg]
          simp only [List.nil_append]
          exact ih _ hrecv' hg'

theorem methSeq_applyItems_some (g : String) :
    ∀ (items : List Item) (σ : String → Option (List Method)) (l : List Method),
    (∀ g' l', σ g' = some l' → ∀ m ∈ l', m.recv = g') →
    σ g = some l →
    l.length = (methSeq g items).length →
    methSeq g (applyItems σ items) = l := by
  intro items
  induction items with
  | nil =>
    intro σ l _ _ hlen
    simp only [methSeq, List.length_nil] at hlen
    rw [List.length_eq_zero] at hlen
    rw [hlen]
    rfl
  | cons it rest ih =>
    intro σ l hrecv hg hlen
    cases it with
    | gap t =>
      simp only [applyItems, methSeq]
      exact ih σ l hrecv hg (by simpa [methSeq] using hlen)
    | method m =>
      by_cases hmg : m.recv = g
      · subst hmg
        cases hσm : σ m.recv with
        | none =>
          rw [hg] at hσm
          cases hσm
        | some l' =>
          rw [hg] at hσm
          cases hσm
          cases l with
          | nil =>
            exfalso
            simp only [methSeq, if_pos rfl] at hlen
            simp at hlen
          | cons h tl =>
            have hh : h.recv = m.recv := hrecv m.recv _ hg h (List.mem_cons_self _ _)
            have hrecv' : ∀ g' l', (Function.update σ m.recv (some tl)) g' = some l' →
                ∀ x ∈ l', x.recv = g' := by
              intro g' l' hl' x hx
              rw [Function.update_apply] at hl'
              by_cases hgg : g' = m.recv
              · rw [if_pos hgg] at hl'
                cases hl'
                rw [hgg]
                exact hrecv m.recv _ hg x (List.mem_cons_of_mem _ hx)
              · rw [if_neg hgg] at hl'
                exact hrecv g' l' hl' x hx
            have hg' : (Function.update σ m.recv (some tl)) m.recv = some tl := by
              rw [Function.update_apply, if_pos rfl]
            have hlen' : tl.length = (methSeq m.recv rest).length := by
              simp only [methSeq, if_pos rfl] at hlen
              simp only [List.length_cons] at hlen ⊢
              simpa using hlen
            simp only [applyItems, hg, methSeq]
            rw [if_pos hh]
            rw [ih _ tl hrecv' hg' hlen']
            rfl
      · cases hσm : σ m.recv with
        | none =>
          simp only [applyItems, hσm, methSeq]
          rw [if_neg hmg]
          simp only [List.nil_append]
          exact ih σ l hrecv hg (by simpa [methSeq, if_neg hmg] using hlen)
        | some l' =>
          cases l' with
          | nil =>
            simp only [applyItems, hσm, methSeq]
            rw [if_neg hmg]
            simp only [List.nil_append]
            exact ih σ l hrecv hg (by simpa [methSeq, if_neg hmg] using hlen)
          | cons h tl =>
            have hh : h.recv = m.recv := hrecv m.recv _ hσm h (List.mem_cons_self _ _)
            have hrecv' : ∀ g' l', (Function.update σ m.recv (some tl)) g' = some l' →
                ∀ x ∈ l', x.recv = g' := by
              intro g' l' hl' x hx
              rw [Function.update_apply] at hl'
              by_cases hgg : g' = m.recv
              · rw [if_pos hgg] at hl'
                cases hl'
                rw [hgg]
                exact hrecv m.recv _ hσm x (List.mem_cons_of_mem _ hx)
              · rw [if_neg hgg] at hl'
                exact hrecv g' l' hl' x hx
            have hg' : (Function.update σ m.recv (some tl)) g = some l := by
              rw [Function.update_apply, if_neg (by exact fun he => hmg he.symm)]
              exact hg
            simp only [applyItems, hσm, methSeq]
            rw [if_neg (hh ▸ hmg)]
            simp only [List.nil_append]
            exact ih _ l hrecv' hg' (by simpa [methSeq, if_neg hmg] using hlen)

theorem expAssign_recv {f : SymFile} :
    ∀ g' l, expAssign f g' = some l → ∀ m ∈ l, m.recv = g' := by
  intro g' l hl m hm
  unfold expAssign at hl
  by_cases hg : g' ∈ needingGroups f
  · rw [if_pos hg] at hl
    cases hl
    rcases List.mem_map.mp hm with ⟨mi, hmi, hmim⟩
    have hmi' : mi ∈ methodsOf f g' := (expectedOrder_perm _).mem_iff.mp hmi
    rw [methodsOf_eq_collectGo] at hmi'
    have := (collectGo_mem hmi').1
    rw [hmim] at this
    exact this
  · rw [if_neg hg] at hl
    cases hl

theorem groupNames_applyFix (f : SymFile) :
    groupNames (applyFix f) = groupNames f := rfl

/-- After the fix, a reordered struct's method names follow the expected
order. -/
theorem methodsOf_applyFix_names {f : SymFile} {g : String}
    (hg : g ∈ needingGroups f) :
    (methodsOf (applyFix f) g).map MethodInfo.name
      = (GetExpectedOrder (methodsOf f g)).map MethodInfo.name := by
  have h1 : (methodsOf (applyFix f) g).map MethodInfo.meth
      = methSeq g (applyItems (expAssign f) f.items) := by
    rw [methodsOf_eq_collectGo]
    exact collectGo_map_meth g 0 _
  have hσg : expAssign f g
      = some ((GetExpectedOrder (methodsOf f g)).map MethodInfo.meth) := by
    unfold expAssign
    rw [if_pos hg]
  have hlen : ((GetExpectedOrder (methodsOf f g)).map MethodInfo.meth).length
      = (methSeq g f.items).length := by
    rw [List.length_map, expectedOrder_length, methodsOf_eq_collectGo,
      ← collectGo_map_meth g 0, List.length_map]
  have h2 := methSeq_applyItems_some g f.items (expAssign f)
    ((GetExpectedOrder (methodsOf f g)).map MethodInfo.meth)
    expAssign_recv hσg hlen
  have h3 : (methodsOf (applyFix f) g).map MethodInfo.meth
      = (GetExpectedOrder (methodsOf f g)).map MethodInfo.meth := by
    rw [h1]
    exact h2
  have h4 := congrArg (List.map Method.name) h3
  rw [List.map_map, List.map_map] at h4
  exact h4

/-- An untouched struct keeps its method names. -/
theorem methodsOf_applyFix_names_keep {f : SymFile} {g : String}
    (hg : g ∉ needingGroups f) :
    (methodsOf (applyFix f) g).map MethodInfo.name
      = (methodsOf f g).map MethodInfo.name := by
  have h1 : (methodsOf (applyFix f) g).map MethodInfo.meth
      = methSeq g (applyItems (expAssign f) f.items) := by
    rw [methodsOf_eq_collectGo]
    exact collectGo_map_meth g 0 _
  have hσg : expAssign f g = none := by
    unfold expAssign
    rw [if_neg hg]
  have h2 := methSeq_applyItems_none g f.items (expAssign f) expAssign_recv hσg
  have h3 : (methodsOf (applyFix f) g).map MethodInfo.meth
      = (methodsOf f g).map MethodInfo.meth := by
    rw [h1, h2, methodsOf_eq_collectGo]
    exact (collectGo_map_meth g 0 _).symm
  have h4 := congrArg (List.map Method.name) h3
  rw [List.map_map, List.map_map] at h4
  exact h4

theorem any_map_general {α β : Type _} (f : α → β) (p : β → Bool) :
    ∀ l : List α, (l.map f).any p = l.any (fun a => p (f a)) := by
  intro l
  induction l with
  | nil => rfl
  | cons a l ih =>
    simp only [List.map_cons, List.any_cons]
    rw [ih]

/-- `NeedsReordering` depends only on the name sequence. -/
theorem needs_eq_names (ms : List MethodInfo) :
    NeedsReordering ms
      = (if ms.length ≤ 1 then false
         else ((ms.map MethodInfo.name).zip
            (orderNames (ms.map MethodInfo.name))).any (fun p => p.1 ≠ p.2)) := by
  unfold NeedsReordering
  by_cases hlen : ms.length ≤ 1
  · rw [if_pos hlen, if_pos hlen]
  · rw [if_neg hlen, if_neg hlen]
    simp only
    rw [if_neg (by rw [expectedOrder_length]; simp)]
    rw [← expectedOrder_map_name]
    rw [List.zip_map, any_map_general]
    rfl

theorem needs_congr {ms ms' : List MethodInfo}
    (h : ms.map MethodInfo.name = ms'.map MethodInfo.name) :
    NeedsReordering ms = NeedsReordering ms' := by
  have hlen : ms.length = ms'.length := by
    have := congrArg List.length h
    simpa using this
  rw [needs_eq_names, needs_eq_names, h, hlen]

theorem needs_false_applyFix {f : SymFile} {g : String}
    (hgn : g ∈ groupNames f) :
    NeedsReordering (methodsOf (applyFix f) g) = false := by
  by_cases hg : g ∈ needingGroups f
  · apply needs_false_of_expected_eq
    apply expected_eq_self_of_map_name
    rw [methodsOf_applyFix_names hg, expectedOrder_map_name, orderNames_idem]
  · rw [needs_congr (methodsOf_applyFix_names_keep hg)]
    by_cases hn : NeedsReordering (methodsOf f g) = true
    · exact absurd (List.mem_filter.mpr ⟨hgn, hn⟩) hg
    · simpa using hn

theorem flatMap_eq_nil_of_parts {α β : Type _} {l : List α} {k : α → List β}
    (h : ∀ a ∈ l, k a = []) : l.flatMap k = [] := by
  induction l with
  | nil => rfl
  | cons a l ih =>
    rw [List.flatMap_cons, h a (List.mem_cons_self _ _),
      ih (fun x hx => h x (List.mem_cons_of_mem _ hx))]
    rfl

/-- Detection is silent on the fixed file, whatever the toggles. -/
theorem detect_applyFix_empty (cfg : Config) (f : SymFile) :
    Detect cfg (applyFix f) = [] := by
  unfold Detect
  rw [flatMap_eq_nil_of_parts (fun g hg => by
    exact checkStruct_eq_nil_of_not_needing (methodsOf_pairwise_le _ g)
      (needs_false_applyFix (by rw [← groupNames_applyFix]; exact hg)))]
  rfl

theorem processFile_noop {cfg : Config} {f : SymFile}
    (h : (Detect cfg f).length = 0 ∨ cfg.fix = false) :
    (ProcessFile cfg f).violations = (Detect cfg f).length
    ∧ (ProcessFile cfg f).fixed = false
    ∧ (ProcessFile cfg f).originalContent = render f
    ∧ (ProcessFile cfg f).fixedContent = none
    ∧ (ProcessFile cfg f).error = none := by
  simp only [ProcessFile]
  rw [if_pos h]
  exact ⟨rfl, rfl, rfl, rfl, rfl⟩

/-- The symbolic result of the first pass (re-parsing the emitted bytes is
modelled as the identity on the symbolic layout). -/
def pass1Sym (cfg : Config) (f : SymFile) : SymFile :=
  if (ProcessFile cfg f).fixed then applyFix f else f

/-- **C3.**  Running detect-then-fix and feeding the output back in: the
first pass's output bytes are the rendering of `pass1Sym`, the first pass
never errors, and the second pass over that output reports zero violations
and fixes nothing. -/
theorem c3_detect_fix_idempotent (cfg : Config) (f : SymFile)
    (hwf : wf f) (hfix : cfg.fix = true) :
    ((ProcessFile cfg f).fixed = true →
      (ProcessFile cfg f).fixedContent = some (render (pass1Sym cfg f)))
    ∧ ((ProcessFile cfg f).fixed = false →
      (ProcessFile cfg f).originalContent = render (pass1Sym cfg f))
    ∧ (ProcessFile cfg f).error = none
    ∧ (ProcessFile cfg (pass1Sym cfg f)).violations = 0
    ∧ (ProcessFile cfg (pass1Sym cfg f)).fixed = false := by
  by_cases hv : (Detect cfg f).length = 0
  · have h1 := processFile_noop (Or.inl hv)
    have hpass : pass1Sym cfg f = f := by
      unfold pass1Sym
      rw [h1.2.1]
      rfl
    rw [hpass]
    have h2 := processFile_noop (Or.inl hv)
    refine ⟨?_, ?_, h1.2.2.2.2, ?_, h2.2.1⟩
    · intro hfix'
      rw [h1.2.1] at hfix'
      cases hfix'
    · intro _
      exact h1.2.2.1
    · rw [h2.1, hv]
  · have hp := processFile_fixes hwf hfix hv
    have hpass : pass1Sym cfg f = applyFix f := by
      unfold pass1Sym
      rw [hp.1]
      rfl
    rw [hpass]
    have hd : (Detect cfg (applyFix f)).length = 0 := by
      rw [detect_applyFix_empty]
      rfl
    have h2 := processFile_noop (Or.inl hd)
    refine ⟨?_, ?_, hp.2.2.1, ?_, h2.2.1⟩
    · intro _
      exact hp.2.1
    · intro hfix'
      rw [hp.1] at hfix'
      cases hfix'
    · rw [h2.1, hd]

/-- Witness for C3: the concrete example file, default checks with fixing
on. -/
theorem c3_detect_fix_idempotent_witness :
    wf exFile
    ∧ (Config.mk true true true).fix = true
    ∧ (((ProcessFile (Config.mk true true true) exFile).fixed = true →
        (ProcessFile (Config.mk true true true) exFile).fixedContent
          = some (render (pass1Sym (Config.mk true true true) exFile)))
      ∧ ((ProcessFile (Config.mk true true true) exFile).fixed = false →
        (ProcessFile (Config.mk true true true) exFile).originalContent
          = render (pass1Sym (Config.mk true true true) exFile))
      ∧ (ProcessFile (Config.mk true true true) exFile).error = none
      ∧ (ProcessFile (Config.mk true true true)
          (pass1Sym (Config.mk true true true) exFile)).violations = 0
      ∧ (ProcessFile (Config.mk true true true)
          (pass1Sym (Config.mk true true true) exFile)).fixed = false) :=
  ⟨by decide, rfl,
    c3_detect_fix_idempotent (Config.mk true true true) exFile (by decide) rfl⟩

/-! ## C10: every misordered struct is reordered, violating or not -/

/-- **C10.**  When fixing is requested and the file has at least one
violation anywhere, the fixed output reorders every struct whose current
method-name order differs from its expected order — whether or not that
struct contributed a violation: after the fix, each such struct's method
names follow its expected order exactly. -/
theorem c10_all_needing_reordered (cfg : Config) (f : SymFile) (hwf : wf f)
    (hfix : cfg.fix = true) (hv : (Detect cfg f).length ≠ 0) :
    (ProcessFile cfg f).fixed = true
    ∧ (ProcessFile cfg f).fixedContent = some (render (applyFix f))
    ∧ ∀ g ∈ groupNames f, NeedsReordering (methodsOf f g) = true →
        (methodsOf (applyFix f) g).map MethodInfo.name
          = (GetExpectedOrder (methodsOf f g)).map MethodInfo.name := by
  have hp := processFile_fixes hwf hfix hv
  refine ⟨hp.1, hp.2.1, ?_⟩
  intro g hg hneed
  exact methodsOf_applyFix_names (List.mem_filter.mpr ⟨hg, hneed⟩)

/-- A file with two structs: `A`'s only methods are an unexported method
followed by a constructor (no exported methods, hence no violation from
either check, yet a wrong order), and `B` has an unexported method before
an exported one (a violation). -/
def exFile2 : SymFile :=
  { decls := ["A", "B"],
    items := [
      .gap ("package p\n\ntype A struct \x7b\x7d\n\ntype B struct \x7b\x7d\n\n".data),
      .method { recv := "A", name := "workA", doc := [],
                body := ("func (a A) workA() \x7b\x7d".data) },
      .gap ("\n\n".data),
      .method { recv := "A", name := "NewA", doc := [],
                body := ("func (a A) NewA() A \x7b return a \x7d".data) },
      .gap ("\n\n".data),
      .method { recv := "B", name := "helperB", doc := [],
                body := ("func (b B) helperB() \x7b\x7d".data) },
      .gap ("\n\n".data),
      .method { recv := "B", name := "RunB", doc := [],
                body := ("func (b B) RunB() \x7b\x7d".data) },
      .gap ("\n".data) ] }

/-- Witness for C10: struct `A` yields no violation (its only methods are a
constructor after an unexported method, with no exported methods), `B`
does; with fixing on, `A` is still reordered. -/
theorem c10_all_needing_reordered_witness :
    wf exFile2
    ∧ (Config.mk true true true).fix = true
    ∧ (Detect (Config.mk true true true) exFile2).length ≠ 0
    ∧ checkStructMethods (Config.mk true true true) "A" (methodsOf exFile2 "A") = []
    ∧ NeedsReordering (methodsOf exFile2 "A") = true
    ∧ ((ProcessFile (Config.mk true true true) exFile2).fixed = true
      ∧ (ProcessFile (Config.mk true true true) exFile2).fixedContent
          = some (render (applyFix exFile2))
      ∧ ∀ g ∈ groupNames exFile2, NeedsReordering (methodsOf exFile2 g) = true →
          (methodsOf (applyFix exFile2) g).map MethodInfo.name
            = (GetExpectedOrder (methodsOf exFile2 g)).map MethodInfo.name) :=
  ⟨by decide, rfl, by decide, by decide, by decide,
    c10_all_needing_reordered (Config.mk true true true) exFile2
      (by decide) rfl (by decide)⟩

/-! ## C4: gaps are preserved verbatim -/

/-- Byte offset of the `k`-th top-level item in the laid-out file. -/
def offsetAt (items : List Item) (k : Nat) : Nat :=
  ((items.take k).map itemLen).sum

theorem offsetAt_zero (items : List Item) : offsetAt items 0 = 0 := rfl

theorem offsetAt_cons_succ (it : Item) (rest : List Item) (k : Nat) :
    offsetAt (it :: rest) (k + 1) = itemLen it + offsetAt rest k := by
  unfold offsetAt
  rw [List.take_succ_cons, List.map_cons, List.sum_cons]

theorem slice_at_item :
    ∀ (items : List Item) (k : Nat) (it : Item), items[k]? = some it →
    sliceBytes (renderItems items) (offsetAt items k)
        (offsetAt items k + itemLen it)
      = itemBytes it := by
  intro items
  induction items with
  | nil => intro k it h; simp at h
  | cons hd rest ih =>
    intro k it h
    cases k with
    | zero =>
      simp only [List.getElem?_cons_zero] at h
      cases h
      rw [offsetAt_zero, renderItems_cons]
      unfold sliceBytes
      simp only [List.drop_zero, Nat.zero_add, Nat.sub_zero]
      exact take_append_exact rfl
    | succ k =>
      simp only [List.getElem?_cons_succ] at h
      rw [offsetAt_cons_succ, renderItems_cons]
      unfold sliceBytes
      have hdrop : (itemBytes hd ++ renderItems rest).drop (itemLen hd + offsetAt rest k)
          = (renderItems rest).drop (offsetAt rest k) := by
        have : itemLen hd + offsetAt rest k = (itemBytes hd).length + offsetAt rest k := rfl
        rw [this, List.drop_append]
      rw [hdrop]
      have harith : itemLen hd + offsetAt rest k + itemLen it
            - (itemLen hd + offsetAt rest k)
          = offsetAt rest k + itemLen it - offsetAt rest k := by omega
      rw [harith]
      exact ih k it h

theorem applyItems_gap_stable :
    ∀ (items : List Item) (σ : String → Option (List Method)) (k : Nat) (t : Bytes),
    items[k]? = some (Item.gap t) →
    (applyItems σ items)[k]? = some (Item.gap t) := by
  intro items
  induction items with
  | nil => intro σ k t h; simp at h
  | cons hd rest ih =>
    intro σ k t h
    cases hd with
    | gap u =>
      cases k with
      | zero =>
        simpa [applyItems] using h
      | succ k =>
        simp only [List.getElem?_cons_succ] at h
        simp only [applyItems, List.getElem?_cons_succ]
        exact ih σ k t h
    | method m =>
      cases k with
      | zero =>
        simp only [List.getElem?_cons_zero] at h
        cases h
      | succ k =>
        simp only [List.getElem?_cons_succ] at h
        cases hσm : σ m.recv with
        | none =>
          simp only [applyItems, hσm, List.getElem?_cons_succ]
          exact ih σ k t h
        | some l =>
          cases l with
          | nil =>
            simp only [applyItems, hσm, List.getElem?_cons_succ]
            exact ih σ k t h
          | cons x tl =>
            simp only [applyItems, hσm, List.getElem?_cons_succ]
            exact ih _ k t h

theorem canonItems_rep_shape :
    ∀ (items : List Item) (σ : String → Option (List Method)) (base : Nat)
      (rep : Rep), rep ∈ canonItems σ base items →
    ∃ k m, items[k]? = some (Item.method m)
      ∧ rep.start = base + offsetAt items k
      ∧ rep.stop = rep.start + itemLen (Item.method m) := by
  intro items
  induction items with
  | nil => intro σ base rep h; cases h
  | cons hd rest ih =>
    intro σ base rep h
    cases hd with
    | gap t =>
      simp only [canonItems] at h
      rcases ih σ (base + t.length) rep h with ⟨k, m, hk, hs, he⟩
      refine ⟨k + 1, m, by simpa using hk, ?_, he⟩
      rw [offsetAt_cons_succ, hs]
      simp only [itemLen, itemBytes]
      omega
    | method m0 =>
      simp only [canonItems] at h
      cases hσm : σ m0.recv with
      | none =>
        rw [hσm] at h
        rcases ih σ (base + (m0.doc.length + m0.body.length)) rep h
          with ⟨k, m, hk, hs, he⟩
        refine ⟨k + 1, m, by simpa using hk, ?_, he⟩
        rw [offsetAt_cons_succ, hs]
        simp only [itemLen, itemBytes, List.length_append]
        omega
      | some l =>
        cases l with
        | nil =>
          rw [hσm] at h
          rcases ih σ (base + (m0.doc.length + m0.body.length)) rep h
            with ⟨k, m, hk, hs, he⟩
          refine ⟨k + 1, m, by simpa using hk, ?_, he⟩
          rw [offsetAt_cons_succ, hs]
          simp only [itemLen, itemBytes, List.length_append]
          omega
        | cons x tl =>
          rw [hσm] at h
          rcases List.mem_cons.mp h with rfl | h
          · refine ⟨0, m0, by simp, ?_, ?_⟩
            · simp [offsetAt_zero]
            · simp only [itemLen, itemBytes, List.length_append]
          · rcases ih _ (base + (m0.doc.length + m0.body.length)) rep h
              with ⟨k, m, hk, hs, he⟩
            refine ⟨k + 1, m, by simpa using hk, ?_, he⟩
            rw [offsetAt_cons_succ, hs]
            simp only [itemLen, itemBytes, List.length_append]
            omega

/-- **C4.**  With fixing on and violations present, the fixed bytes are the
rendering of the symbolic slot permutation; every gap of the original
layout survives unchanged at the same item index, and slicing the fixed
output at the gap's (shifted) offset returns exactly the original gap
bytes; and every collected slot replacement covers exactly one method
item's byte range — never a byte between slots. -/
theorem c4_gap_preservation (cfg : Config) (f : SymFile) (hwf : wf f)
    (hfix : cfg.fix = true) (hv : (Detect cfg f).length ≠ 0) :
    (ProcessFile cfg f).fixedContent = some (render (applyFix f))
    ∧ (∀ (k : Nat) (t : Bytes), f.items[k]? = some (Item.gap t) →
        (applyFix f).items[k]? = some (Item.gap t)
        ∧ sliceBytes (render (applyFix f)) (offsetAt (applyFix f).items k)
            (offsetAt (applyFix f).items k + t.length) = t)
    ∧ (∀ rep ∈ allSlots f, ∃ k m, f.items[k]? = some (Item.method m)
        ∧ rep.start = offsetAt f.items k
        ∧ rep.stop = rep.start + itemLen (Item.method m)) := by
  refine ⟨(processFile_fixes hwf hfix hv).2.1, ?_, ?_⟩
  · intro k t hk
    have hstable : (applyFix f).items[k]? = some (Item.gap t) :=
      applyItems_gap_stable f.items (expAssign f) k t hk
    refine ⟨hstable, ?_⟩
    have := slice_at_item (applyFix f).items k (Item.gap t) hstable
    simpa [itemLen, itemBytes, render] using this
  · intro rep hrep
    have hmem : rep ∈ canonItems (expAssign f) 0 f.items :=
      (canon_perm_allSlots f).symm.mem_iff.mp hrep
    rcases canonItems_rep_shape f.items (expAssign f) 0 rep hmem
      with ⟨k, m, hk, hs, he⟩
    exact ⟨k, m, hk, by simpa using hs, he⟩

/-- Witness for C4 at the concrete example file. -/
theorem c4_gap_preservation_witness :
    wf exFile
    ∧ (Config.mk true true true).fix = true
    ∧ (Detect (Config.mk true true true) exFile).length ≠ 0
    ∧ ((ProcessFile (Config.mk true true true) exFile).fixedContent
          = some (render (applyFix exFile))
      ∧ (∀ (k : Nat) (t : Bytes), exFile.items[k]? = some (Item.gap t) →
          (applyFix exFile).items[k]? = some (Item.gap t)
          ∧ sliceBytes (render (applyFix exFile)) (offsetAt (applyFix exFile).items k)
              (offsetAt (applyFix exFile).items k + t.length) = t)
      ∧ (∀ rep ∈ allSlots exFile, ∃ k m,
          exFile.items[k]? = some (Item.method m)
          ∧ rep.start = offsetAt exFile.items k
          ∧ rep.stop = rep.start + itemLen (Item.method m))) :=
  ⟨by decide, rfl, by decide,
    c4_gap_preservation (Config.mk true true true) exFile (by decide) rfl (by decide)⟩

end Funcorder
